import Mathlib

/-
Verification development for the ponder realtime sync core and its SQLite
cache store.

The embedding follows two source files:
  * packages/core/src/database/cache/sqliteCacheStore.ts
  * packages/core/src/realtime-sync/service.ts

Database tables are modelled as Lean lists in row (insertion) order; SQLite
transactions that can throw are modelled with `Except String`.  Hex-encoded
block quantities (numbers, timestamps) are decoded to `Nat`, matching the
`hexToNumber` decoding done by the service; opaque hex fields (hashes, blooms,
topics) stay `String`.  External collaborators (the JSON-RPC transport and the
pure bloom / log-filter helpers, which live outside the modelled sources) are
parameters of the service in an `RpcEnv` record.
-/

/-- A row of the `cachedIntervals` table (sqliteCacheStore.ts, `migrate`). -/
structure CachedInterval where
  contractAddress : String
  startBlock : Nat
  endBlock : Nat
  endBlockTimestamp : Nat
deriving DecidableEq, Repr

/-- One step of insertion sort on interval pairs, ordered by start block. -/
def insertPairSorted (x : Nat × Nat) : List (Nat × Nat) → List (Nat × Nat)
  | [] => [x]
  | a :: t => if x.1 ≤ a.1 then x :: a :: t else a :: insertPairSorted x t

/-- Sort interval pairs by start block (insertion sort). -/
def sortPairs (l : List (Nat × Nat)) : List (Nat × Nat) :=
  l.foldr insertPairSorted []

/-- Merge a run of intervals that is sorted by start block: the running
interval `a` absorbs the next interval whenever the two overlap or are
adjacent, otherwise `a` is emitted and the next interval becomes the runner. -/
def mergeInto (a : Nat × Nat) : List (Nat × Nat) → List (Nat × Nat)
  | [] => [a]
  | b :: t => if b.1 ≤ a.2 + 1 then mergeInto (a.1, max a.2 b.2) t else a :: mergeInto b t

/-- Modelled from the spec: `merge_intervals`, imported by sqliteCacheStore.ts
from `common/utils` which is not among the sources.  Per the spec's merge rule,
intervals `[a,b]` and `[c,d]` with `max(a,c) ≤ min(b,d)+1` combine into
`[min(a,c), max(b,d)]`; this is realised by sorting the pairs by start block
and merging overlapping-or-adjacent neighbours. -/
def merge_intervals (l : List (Nat × Nat)) : List (Nat × Nat) :=
  match sortPairs l with
  | [] => []
  | a :: t => mergeInto a t

/-- Pointwise coverage of a block number by a list of interval pairs. -/
def coversAt (l : List (Nat × Nat)) (n : Nat) : Prop :=
  ∃ p ∈ l, p.1 ≤ n ∧ n ≤ p.2

/-- The `(startBlock, endBlock)` pair of a cached-interval row. -/
def intervalPair (r : CachedInterval) : Nat × Nat :=
  (r.startBlock, r.endBlock)

/-- One iteration of the insert loop of `insertCachedInterval`
(sqliteCacheStore.ts lines 215-236): the merged pair's `endBlockTimestamp` is
looked up among the contributing intervals (the new interval first, then the
deleted existing rows, in table order); if no contributor's `endBlock` equals
the merged `endBlock` the transaction throws. -/
def mergedRowFor (interval : CachedInterval) (existingIntervals : List CachedInterval)
    (mergedInterval : Nat × Nat) : Except String CachedInterval :=
  match (interval :: existingIntervals).find?
      (fun oldInterval => oldInterval.endBlock == mergedInterval.2) with
  | none => Except.error "Old interval with endBlock not found"
  | some endBlockInterval =>
      Except.ok { contractAddress := interval.contractAddress,
                  startBlock := mergedInterval.1,
                  endBlock := mergedInterval.2,
                  endBlockTimestamp := endBlockInterval.endBlockTimestamp }

/-- The insert loop of `insertCachedInterval`: build the rows for all merged
pairs, aborting the transaction on the first missing contributor. -/
def buildMergedRows (interval : CachedInterval) (existingIntervals : List CachedInterval)
    (ps : List (Nat × Nat)) : Except String (List CachedInterval) :=
  ps.mapM (mergedRowFor interval existingIntervals)

/-- `insertCachedInterval` (sqliteCacheStore.ts lines 176-241): inside one
transaction, delete (returning) all rows of the contract, and either insert
the new interval alone (no existing rows) or insert the merged intervals with
propagated timestamps.  Deleted rows disappear from the table and fresh rows
are appended, so the resulting table is the untouched rows followed by the
inserted rows. -/
def insertCachedInterval (interval : CachedInterval) (table : List CachedInterval) :
    Except String (List CachedInterval) :=
  let existingIntervals := table.filter
    (fun r => r.contractAddress == interval.contractAddress)
  let otherRows := table.filter
    (fun r => !(r.contractAddress == interval.contractAddress))
  if existingIntervals.isEmpty then
    Except.ok (otherRows ++ [interval])
  else
    let mergedIntervals := merge_intervals
      (existingIntervals.map intervalPair ++ [intervalPair interval])
    (buildMergedRows interval existingIntervals mergedIntervals).map
      (fun rows => otherRows ++ rows)

/-- A row of the `logs` table (sqliteCacheStore.ts, `migrate`). -/
structure LogRow where
  logId : String
  logSortKey : Nat
  address : String
  data : String
  topic0 : Option String
  topic1 : Option String
  topic2 : Option String
  topic3 : Option String
  blockHash : String
  blockNumber : Nat
  blockTimestamp : Option Nat
  logIndex : Nat
  transactionHash : String
  transactionIndex : Nat
  removed : Bool
deriving DecidableEq, Repr

/-- A row of the `blocks` table (sqliteCacheStore.ts, `migrate`).  Fields
persisted as decimal TEXT stay `String`. -/
structure BlockRow where
  hash : String
  number : Nat
  timestamp : Nat
  gasLimit : String
  gasUsed : String
  baseFeePerGas : String
  miner : String
  extraData : String
  size : Nat
  parentHash : String
  stateRoot : String
  transactionsRoot : String
  receiptsRoot : String
  logsBloom : String
  totalDifficulty : String
deriving DecidableEq, Repr

/-- A row of the `transactions` table (sqliteCacheStore.ts, `migrate`).  The
SQL column `from` is called `fromAddr` here because `from` is a Lean keyword. -/
structure TransactionRow where
  hash : String
  nonce : Nat
  fromAddr : String
  toAddr : Option String
  value : String
  inputData : String
  gas : String
  gasPrice : String
  maxFeePerGas : Option String
  maxPriorityFeePerGas : Option String
  blockHash : String
  blockNumber : Nat
  transactionIndex : Nat
  chainId : Nat
deriving DecidableEq, Repr

/-- A row of the `contractCalls` table (sqliteCacheStore.ts, `migrate`). -/
structure ContractCall where
  key : String
  result : String
deriving DecidableEq, Repr

/-- The mutable tables of the cache store (the `cachedIntervals` table is kept
separately as a plain list, see `insertCachedInterval`). -/
structure CacheDb where
  logs : List LogRow
  blocks : List BlockRow
  transactions : List TransactionRow
  contractCalls : List ContractCall
deriving DecidableEq, Repr

/-- The empty cache store. -/
def emptyCacheDb : CacheDb :=
  { logs := [], blocks := [], transactions := [], contractCalls := [] }

/-- `insertLogs` (sqliteCacheStore.ts lines 243-287): insert each log, ignoring
rows whose `logId` already exists (`ON CONFLICT("logId") DO NOTHING`).  The
INSERT's column list omits `blockTimestamp`, so freshly inserted rows carry
NULL there. -/
def insertLogs (logs : List LogRow) (db : CacheDb) : CacheDb :=
  { db with
    logs := logs.foldl
      (fun acc l =>
        if acc.any (fun r => r.logId == l.logId) then acc
        else acc ++ [{ l with blockTimestamp := none }])
      db.logs }

/-- `insertBlock` (sqliteCacheStore.ts lines 289-342): insert the block row
(`ON CONFLICT("hash") DO NOTHING`), then set `blockTimestamp` on every log row
whose `blockHash` matches the block's hash. -/
def insertBlock (block : BlockRow) (db : CacheDb) : CacheDb :=
  { db with
    blocks :=
      if db.blocks.any (fun b => b.hash == block.hash) then db.blocks
      else db.blocks ++ [block],
    logs := db.logs.map (fun l =>
      if l.blockHash == block.hash then { l with blockTimestamp := some block.timestamp }
      else l) }

/-- `insertTransactions` (sqliteCacheStore.ts lines 344-390): insert each
transaction, ignoring rows whose `hash` already exists. -/
def insertTransactions (transactions : List TransactionRow) (db : CacheDb) : CacheDb :=
  { db with
    transactions := transactions.foldl
      (fun acc t =>
        if acc.any (fun r => r.hash == t.hash) then acc
        else acc ++ [t])
      db.transactions }

/-- Modelled from the spec: `insertRealtimeBlock`, the event-store write used
by the realtime service (its implementation is not among the sources; the spec
describes it as inserting the block row, upserting the referenced
transactions, inserting the logs, and backfilling `blockTimestamp` last).  It
is the composition of the three cache-store primitives above, with
`insertBlock` — which carries the backfill — applied after `insertLogs`. -/
def insertRealtimeBlockDb (block : BlockRow) (transactions : List TransactionRow)
    (logs : List LogRow) (db : CacheDb) : CacheDb :=
  insertBlock block (insertLogs logs (insertTransactions transactions db))

/-- `upsertContractCall` (sqliteCacheStore.ts lines 459-471):
`ON CONFLICT("key") DO UPDATE SET result = excluded.result`. -/
def upsertContractCall (contractCall : ContractCall) (db : CacheDb) : CacheDb :=
  { db with
    contractCalls :=
      if db.contractCalls.any (fun c => c.key == contractCall.key) then
        db.contractCalls.map (fun c =>
          if c.key == contractCall.key then { c with result := contractCall.result }
          else c)
      else db.contractCalls ++ [contractCall] }

/-- `getContractCall` (sqliteCacheStore.ts lines 473-481). -/
def getContractCall (contractCallKey : String) (db : CacheDb) : Option ContractCall :=
  db.contractCalls.find? (fun c => c.key == contractCallKey)

/-- Apply a sequence of `upsertContractCall` writes in order. -/
def applyContractCallUpserts (calls : List ContractCall) (db : CacheDb) : CacheDb :=
  calls.foldl (fun acc c => upsertContractCall c acc) db

/-- A light block (realtime-sync/format.ts, not among the sources; the spec
gives its shape as `{hash, number, parentHash, timestamp, logsBloom}` with the
bloom unused by the local chain, and the service only reads these fields). -/
structure LightBlock where
  hash : String
  parentHash : String
  number : Nat
  timestamp : Nat
deriving DecidableEq, Repr

/-- A transaction as delivered by the RPC inside a full block; the service
only inspects its hash. -/
structure RpcTransaction where
  hash : String
deriving DecidableEq, Repr

/-- A full block with transactions, as returned by `eth_getBlockByNumber` /
`eth_getBlockByHash` with `withTxns = true`, restricted to the fields the
service reads. -/
structure BlockWithTransactions where
  hash : String
  parentHash : String
  number : Nat
  timestamp : Nat
  logsBloom : String
  transactions : List RpcTransaction
deriving DecidableEq, Repr

/-- `rpcBlockToLightBlock` (realtime-sync/format.ts): project a full block to
its light form. -/
def rpcBlockToLightBlock (b : BlockWithTransactions) : LightBlock :=
  { hash := b.hash, parentHash := b.parentHash, number := b.number, timestamp := b.timestamp }

/-- A raw log as returned by `eth_getLogs`, restricted to the fields the
service forwards or inspects. -/
structure RpcLog where
  logId : String
  address : String
  topics : List String
  data : String
  blockHash : String
  transactionHash : String
  logIndex : Nat
deriving DecidableEq, Repr

/-- The per-filter configuration the service reads: `filter.key` and
`filter.endBlock` (the address/topic patterns only feed the bloom and log
filter helpers, which are abstracted into `RpcEnv`). -/
structure LogFilterCfg where
  key : String
  endBlock : Option Nat
deriving DecidableEq, Repr

/-- The network-level configuration the service reads. -/
structure NetworkConfig where
  chainId : Nat
  finalityBlockCount : Nat
  logFilters : List LogFilterCfg
deriving DecidableEq, Repr

/-- The external collaborators of one block task: the JSON-RPC transport and
the pure bloom / log-filter helpers (`isMatchedLogInBloomFilter`, `filterLogs`
from realtime-sync/bloom.ts and filter.ts, which are not among the sources and
are therefore abstract here, applied to the configured filters). -/
structure RpcEnv where
  getLogsByBlockHash : String → List RpcLog
  getBlockByNumber : Nat → Option BlockWithTransactions
  getBlockByHash : String → Option BlockWithTransactions
  latestBlock : Option BlockWithTransactions
  bloomMatches : String → Bool
  filterMatches : List RpcLog → List RpcLog

/-- The service state mutated by the worker: `finalizedBlockNumber`, the local
chain `blocks`, and the pending task queue (priority, task) in insertion
order. -/
structure ServiceState where
  finalizedBlockNumber : Nat
  blocks : List LightBlock
  queue : List (Nat × BlockWithTransactions)
deriving DecidableEq, Repr

/-- `Number.MAX_SAFE_INTEGER`, the base of the queue priority convention. -/
def maxSafeInteger : Nat := 2 ^ 53 - 1

/-- `addTask(block, { priority: MAX_SAFE_INTEGER - number })`. -/
def enqueueEntry (b : BlockWithTransactions) : Nat × BlockWithTransactions :=
  (maxSafeInteger - b.number, b)

/-- An RPC request issued during a block task. -/
inductive RpcFetch where
  | getLogs (blockHash : String)
  | getBlockByNumber (number : Nat)
  | getBlockByHash (hash : String)
  | getLatestBlock
deriving DecidableEq, Repr

/-- Whether a recorded RPC request is a parent fetch (`eth_getBlockByHash`). -/
def RpcFetch.isGetBlockByHash : RpcFetch → Bool
  | RpcFetch.getBlockByHash _ => true
  | _ => false

/-- An event-store write issued during a block task. -/
inductive StoreOp where
  | insertRealtimeBlock (chainId : Nat) (block : BlockWithTransactions)
      (transactions : List RpcTransaction) (logs : List RpcLog)
  | insertLogFilterCachedRanges (logFilterKeys : List String)
      (startBlock endBlock endBlockTimestamp : Nat)
  | deleteRealtimeData (chainId : Nat) (fromBlockNumber : Nat)
deriving DecidableEq, Repr

/-- Whether a store write is an `insertRealtimeBlock` (i.e. writes log, block
or transaction rows). -/
def StoreOp.writesRows : StoreOp → Bool
  | StoreOp.insertRealtimeBlock _ _ _ _ => true
  | _ => false

/-- An event emitted by the service. -/
inductive ServiceEvent where
  | realtimeCheckpoint (timestamp : Nat)
  | finalityCheckpoint (timestamp : Nat)
  | shallowReorg (commonAncestorTimestamp : Nat)
  | deepReorg (detectedAtBlockNumber : Nat) (minimumDepth : Nat)
deriving DecidableEq, Repr

/-- The classification a block task resolved to (one per `return` path of
`blockTaskWorker`). -/
inductive TaskOutcome where
  | duplicate
  | extended (finalityAdvanced : Bool)
  | gapFilled
  | shallowReorgDone (ancestor : LightBlock) (depth : Nat)
  | deepReorgDone (depth : Nat)
deriving DecidableEq, Repr

/-- Everything one block task produced: the new service state fields, whether
the queue was cleared before the recorded enqueues, the emitted events, the
event-store writes, and the RPC requests issued. -/
structure WorkerOutput where
  finalizedBlockNumber : Nat
  blocks : List LightBlock
  queue : List (Nat × BlockWithTransactions)
  queueCleared : Bool
  events : List ServiceEvent
  storeOps : List StoreOp
  fetched : List RpcFetch
  outcome : TaskOutcome
deriving DecidableEq, Repr

/-- Case 2 of `blockTaskWorker` (service.ts lines 271-435): extend the local
chain with the new head block, bloom pre-screen, fetch and filter logs, insert
matched data, emit `realtimeCheckpoint`, and advance finality when the new
head is deep enough. -/
def extendChain (cfg : NetworkConfig) (env : RpcEnv) (s : ServiceState)
    (block : BlockWithTransactions) (newBlock : LightBlock) : Except String WorkerOutput :=
  let bloomHit := env.bloomMatches block.logsBloom
  let logFetches := if bloomHit then [RpcFetch.getLogs newBlock.hash] else []
  let insertOps :=
    if bloomHit then
      let logs := env.getLogsByBlockHash newBlock.hash
      let filteredLogs := env.filterMatches logs
      let requiredTransactionHashes := filteredLogs.map (fun l => l.transactionHash)
      let filteredTransactions := block.transactions.filter
        (fun t => requiredTransactionHashes.contains t.hash)
      if 0 < filteredLogs.length then
        [StoreOp.insertRealtimeBlock cfg.chainId block filteredTransactions filteredLogs]
      else []
    else []
  let blocks1 := s.blocks ++ [newBlock]
  if s.finalizedBlockNumber + 2 * cfg.finalityBlockCount < newBlock.number then
    match blocks1.find? (fun b =>
        b.number == s.finalizedBlockNumber + cfg.finalityBlockCount) with
    | none => Except.error "Could not find the new finalized block in the local chain"
    | some newFinalizedBlock =>
      Except.ok
        { finalizedBlockNumber := newFinalizedBlock.number,
          blocks := blocks1.filter (fun b => decide (newFinalizedBlock.number ≤ b.number)),
          queue := s.queue, queueCleared := false,
          events := [ServiceEvent.realtimeCheckpoint block.timestamp,
                     ServiceEvent.finalityCheckpoint newFinalizedBlock.timestamp],
          storeOps := insertOps ++
            [StoreOp.insertLogFilterCachedRanges (cfg.logFilters.map (fun f => f.key))
              (s.finalizedBlockNumber + 1) newFinalizedBlock.number
              newFinalizedBlock.timestamp],
          fetched := logFetches, outcome := TaskOutcome.extended true }
  else
    Except.ok
      { finalizedBlockNumber := s.finalizedBlockNumber, blocks := blocks1,
        queue := s.queue, queueCleared := false,
        events := [ServiceEvent.realtimeCheckpoint block.timestamp],
        storeOps := insertOps, fetched := logFetches,
        outcome := TaskOutcome.extended false }

/-- Case 3 of `blockTaskWorker` (service.ts lines 437-484): fetch the missing
blocks `[head+1 .. B.number-1]` and enqueue them together with the task block,
each with priority `MAX_SAFE_INTEGER - number`. -/
def fillGap (env : RpcEnv) (s : ServiceState) (block : BlockWithTransactions)
    (newBlock previousHeadBlock : LightBlock) : Except String WorkerOutput :=
  let missingBlockNumbers := List.range' (previousHeadBlock.number + 1)
    (newBlock.number - (previousHeadBlock.number + 1))
  match missingBlockNumbers.mapM env.getBlockByNumber with
  | none => Except.error "Failed to fetch missing block"
  | some missingBlocks =>
    Except.ok
      { finalizedBlockNumber := s.finalizedBlockNumber, blocks := s.blocks,
        queue := s.queue ++ (missingBlocks ++ [block]).map enqueueEntry,
        queueCleared := false, events := [], storeOps := [],
        fetched := missingBlockNumbers.map RpcFetch.getBlockByNumber,
        outcome := TaskOutcome.gapFilled }

/-- Case 4 of `blockTaskWorker` (service.ts lines 486-595): walk up the remote
chain while the cursor is above the finalized block.  On finding the common
ancestor in the local chain: truncate the local chain, delete unfinalized
store data above the ancestor, clear the queue, enqueue the fetched canonical
blocks and one extra latest block, and emit `shallowReorg`.  If the loop exits,
emit `deepReorg` and leave everything unchanged.  The `fuel` argument bounds
the traversal so the definition is total; every run that terminates in the
source corresponds to a sufficiently large fuel. -/
def reorgLoop (cfg : NetworkConfig) (env : RpcEnv) (s : ServiceState)
    (originalBlockNumber : Nat) :
    List BlockWithTransactions → LightBlock → Nat → List RpcFetch → Nat →
    Except String WorkerOutput
  | _, _, _, _, 0 => Except.error "reorg reconciliation exceeded fuel"
  | canonicalBlocks, canonicalBlock, depth, fetched, _fuel + 1 =>
    if s.finalizedBlockNumber < canonicalBlock.number then
      match s.blocks.find? (fun b => b.hash == canonicalBlock.parentHash) with
      | some commonAncestorBlock =>
        match env.latestBlock with
        | none => Except.error "Unable to fetch latest block"
        | some latestBlock =>
          Except.ok
            { finalizedBlockNumber := s.finalizedBlockNumber,
              blocks := s.blocks.filter
                (fun b => decide (b.number ≤ commonAncestorBlock.number)),
              queue := canonicalBlocks.map enqueueEntry ++ [enqueueEntry latestBlock],
              queueCleared := true,
              events := [ServiceEvent.shallowReorg commonAncestorBlock.timestamp],
              storeOps := [StoreOp.deleteRealtimeData cfg.chainId
                (commonAncestorBlock.number + 1)],
              fetched := fetched ++ [RpcFetch.getLatestBlock],
              outcome := TaskOutcome.shallowReorgDone commonAncestorBlock depth }
      | none =>
        match env.getBlockByHash canonicalBlock.parentHash with
        | none => Except.error "Failed to fetch parent block"
        | some parentBlock =>
          reorgLoop cfg env s originalBlockNumber (parentBlock :: canonicalBlocks)
            (rpcBlockToLightBlock parentBlock) (depth + 1)
            (fetched ++ [RpcFetch.getBlockByHash canonicalBlock.parentHash]) _fuel
    else
      Except.ok
        { finalizedBlockNumber := s.finalizedBlockNumber, blocks := s.blocks,
          queue := s.queue, queueCleared := false,
          events := [ServiceEvent.deepReorg originalBlockNumber depth],
          storeOps := [], fetched := fetched,
          outcome := TaskOutcome.deepReorgDone depth }

/-- `blockTaskWorker` (service.ts lines 255-595): classify the dequeued block
against the local chain head and dispatch.  An empty local chain makes both
the new-head and the gap comparison false (they compare against `undefined`
in the source), so such a task falls through to the reorg path, exactly as in
the source. -/
def blockTaskWorker (cfg : NetworkConfig) (env : RpcEnv) (s : ServiceState)
    (block : BlockWithTransactions) : Except String WorkerOutput :=
  let newBlock := rpcBlockToLightBlock block
  if s.blocks.any (fun b => b.hash == newBlock.hash) then
    Except.ok
      { finalizedBlockNumber := s.finalizedBlockNumber, blocks := s.blocks,
        queue := s.queue, queueCleared := false, events := [], storeOps := [],
        fetched := [], outcome := TaskOutcome.duplicate }
  else
    match s.blocks.getLast? with
    | some previousHeadBlock =>
      if newBlock.number == previousHeadBlock.number + 1 &&
          newBlock.parentHash == previousHeadBlock.hash then
        extendChain cfg env s block newBlock
      else if previousHeadBlock.number + 1 < newBlock.number then
        fillGap env s block newBlock previousHeadBlock
      else
        reorgLoop cfg env s newBlock.number [block] newBlock 0 [] (newBlock.number + 1)
    | none =>
      reorgLoop cfg env s newBlock.number [block] newBlock 0 [] (newBlock.number + 1)

/-- How `start()` resolved. -/
inductive StartOutcome where
  | noRealtimeFilters
  | started
deriving DecidableEq, Repr

/-- `start()` (service.ts lines 115-184): return without seeding or polling
exactly when every log filter has a defined `endBlock` strictly below the
finalized block number; otherwise require a non-empty queue (setup ran), fetch
the finalized block, seed the local chain with its light form, and begin
polling. -/
def startService (cfg : NetworkConfig) (env : RpcEnv) (s : ServiceState) :
    Except String (StartOutcome × ServiceState) :=
  if cfg.logFilters.all (fun f =>
      match f.endBlock with
      | some endBlock => decide (endBlock < s.finalizedBlockNumber)
      | none => false) then
    Except.ok (StartOutcome.noRealtimeFilters, s)
  else if s.queue.length == 0 then
    Except.error "Unable to start. Must call setup() method before start()."
  else
    match env.getBlockByNumber s.finalizedBlockNumber with
    | none => Except.error "Unable to fetch finalized block"
    | some finalizedBlock =>
      Except.ok (StartOutcome.started,
        { s with blocks := s.blocks ++ [rpcBlockToLightBlock finalizedBlock] })


/-- Concrete log rows, blocks and contract calls used by the closed witness
theorems below. -/
def logW1 : LogRow :=
  { logId := "log-1", logSortKey := 1, address := "0xa", data := "0x",
    topic0 := some "0xt0", topic1 := none, topic2 := none, topic3 := none,
    blockHash := "0xb1", blockNumber := 1, blockTimestamp := none,
    logIndex := 0, transactionHash := "0xtx1", transactionIndex := 0,
    removed := false }

def logW2 : LogRow :=
  { logId := "log-2", logSortKey := 2, address := "0xa", data := "0x",
    topic0 := none, topic1 := none, topic2 := none, topic3 := none,
    blockHash := "0xother", blockNumber := 9, blockTimestamp := some 77,
    logIndex := 1, transactionHash := "0xtx2", transactionIndex := 1,
    removed := false }

def blockRowW : BlockRow :=
  { hash := "0xb1", number := 1, timestamp := 1000, gasLimit := "0x1",
    gasUsed := "0x1", baseFeePerGas := "0x1", miner := "0xm", extraData := "0x",
    size := 100, parentHash := "0xb0", stateRoot := "0xs",
    transactionsRoot := "0xt", receiptsRoot := "0xr", logsBloom := "0x0",
    totalDifficulty := "1" }

def dbW : CacheDb :=
  { logs := [logW2], blocks := [], transactions := [], contractCalls := [] }

/-- Concrete light blocks for the service witness scenarios. -/
def lbW0 : LightBlock := { hash := "0xh0", parentHash := "0xhp", number := 0, timestamp := 100 }

def lbW1 : LightBlock := { hash := "0xh1", parentHash := "0xh0", number := 1, timestamp := 110 }

def lbW2 : LightBlock := { hash := "0xh2", parentHash := "0xh1", number := 2, timestamp := 120 }

/-- A full block extending `lbW2` (used by the finality-advance witness). -/
def bwW3 : BlockWithTransactions :=
  { hash := "0xh3", parentHash := "0xh2", number := 3, timestamp := 130,
    logsBloom := "0xb3", transactions := [] }

/-- A full block extending `lbW0` (used by the bloom-false-positive witness). -/
def bwW1 : BlockWithTransactions :=
  { hash := "0xh1", parentHash := "0xh0", number := 1, timestamp := 110,
    logsBloom := "0xb1", transactions := [{ hash := "0xtx1" }] }

/-- A raw log returned by the RPC in the bloom-false-positive witness. -/
def rpcLogW : RpcLog :=
  { logId := "log-1", address := "0xa", topics := [], data := "0x",
    blockHash := "0xh1", transactionHash := "0xtx1", logIndex := 0 }

/-- An RPC environment that answers nothing (no logs, no blocks, bloom miss). -/
def envQuiet : RpcEnv :=
  { getLogsByBlockHash := fun _ => [], getBlockByNumber := fun _ => none,
    getBlockByHash := fun _ => none, latestBlock := none,
    bloomMatches := fun _ => false, filterMatches := fun l => l }

/-- Environment for the bloom-false-positive witness: the bloom matches but
the log filter rejects every log. -/
def envBloomOnly : RpcEnv :=
  { getLogsByBlockHash := fun _ => [rpcLogW], getBlockByNumber := fun _ => none,
    getBlockByHash := fun _ => none, latestBlock := none,
    bloomMatches := fun _ => true, filterMatches := fun _ => [] }

/-- Config for the finality-advance witness (`finalityBlockCount = 1`). -/
def cfgFinality : NetworkConfig :=
  { chainId := 1, finalityBlockCount := 1, logFilters := [{ key := "k1", endBlock := none }] }

/-- Config for the bloom-false-positive witness (`finalityBlockCount = 10`). -/
def cfgDeepFinality : NetworkConfig :=
  { chainId := 1, finalityBlockCount := 10, logFilters := [{ key := "k1", endBlock := none }] }

/-- Service state for the finality-advance witness. -/
def sFinality : ServiceState :=
  { finalizedBlockNumber := 0, blocks := [lbW0, lbW1, lbW2], queue := [] }

/-- Service state for the bloom-false-positive witness. -/
def sShort : ServiceState :=
  { finalizedBlockNumber := 0, blocks := [lbW0], queue := [] }

/-- The finalized block fetched by `start()` in the start witnesses. -/
def bwFinalized5 : BlockWithTransactions :=
  { hash := "0xf5", parentHash := "0xf4", number := 5, timestamp := 50,
    logsBloom := "0x0", transactions := [] }

/-- A queued block making `setup()` appear completed in the start witnesses. -/
def bwQueued : BlockWithTransactions :=
  { hash := "0xq", parentHash := "0xp", number := 6, timestamp := 60,
    logsBloom := "0x0", transactions := [] }

/-- Environment for the start witnesses: only block 5 is fetchable. -/
def envStart : RpcEnv :=
  { getLogsByBlockHash := fun _ => [],
    getBlockByNumber := fun n => if n = 5 then some bwFinalized5 else none,
    getBlockByHash := fun _ => none, latestBlock := none,
    bloomMatches := fun _ => false, filterMatches := fun l => l }

/-- State at `start()` in the start witnesses (`finalizedBlockNumber = 5`,
setup already queued the latest block). -/
def sStart : ServiceState :=
  { finalizedBlockNumber := 5, blocks := [], queue := [enqueueEntry bwQueued] }

/-- Config whose single filter has `endBlock = 5`, equal to the finalized
block number of `sStart` (the boundary case separating the claim from the
code). -/
def cfgEndBlockAtFinalized : NetworkConfig :=
  { chainId := 1, finalityBlockCount := 10, logFilters := [{ key := "k1", endBlock := some 5 }] }

/-- Config whose single filter has `endBlock = 4`, strictly below the
finalized block number of `sStart`. -/
def cfgEndBlockBelowFinalized : NetworkConfig :=
  { chainId := 1, finalityBlockCount := 10, logFilters := [{ key := "k1", endBlock := some 4 }] }

/-- The worker output of the finality-advance witness run. -/
def outFinalityW : WorkerOutput :=
  { finalizedBlockNumber := 1,
    blocks := [lbW1, lbW2, rpcBlockToLightBlock bwW3],
    queue := [], queueCleared := false,
    events := [ServiceEvent.realtimeCheckpoint 130, ServiceEvent.finalityCheckpoint 110],
    storeOps := [StoreOp.insertLogFilterCachedRanges ["k1"] 1 1 110],
    fetched := [], outcome := TaskOutcome.extended true }

/-- The worker output of the bloom-false-positive witness run. -/
def outBloomW : WorkerOutput :=
  { finalizedBlockNumber := 0,
    blocks := [lbW0, rpcBlockToLightBlock bwW1],
    queue := [], queueCleared := false,
    events := [ServiceEvent.realtimeCheckpoint 110],
    storeOps := [], fetched := [RpcFetch.getLogs "0xh1"],
    outcome := TaskOutcome.extended false }

/-- Local chain blocks for the reorg witness scenarios. -/
def lbW98 : LightBlock := { hash := "0xh98", parentHash := "0xh97", number := 98, timestamp := 980 }

def lbW99 : LightBlock := { hash := "0xh99", parentHash := "0xh98", number := 99, timestamp := 990 }

def lbW100 : LightBlock := { hash := "0xh100", parentHash := "0xh99", number := 100, timestamp := 1000 }

/-- The forked head block received in the shallow-reorg witness. -/
def bwX101 : BlockWithTransactions :=
  { hash := "0xx101", parentHash := "0xx100", number := 101, timestamp := 1010,
    logsBloom := "0x0", transactions := [] }

/-- The canonical replacement of block 100 in the shallow-reorg witness; its
parent is the local block 99. -/
def bwX100 : BlockWithTransactions :=
  { hash := "0xx100", parentHash := "0xh99", number := 100, timestamp := 1001,
    logsBloom := "0x0", transactions := [] }

/-- Environment of the shallow-reorg witness: only the canonical block 100 is
fetchable by hash, and the latest block is the forked head itself. -/
def envReorg : RpcEnv :=
  { getLogsByBlockHash := fun _ => [], getBlockByNumber := fun _ => none,
    getBlockByHash := fun h => if h = "0xx100" then some bwX100 else none,
    latestBlock := some bwX101, bloomMatches := fun _ => false,
    filterMatches := fun l => l }

/-- Service state of the reorg witnesses: `finalizedBlockNumber = 98`, local
chain `[98, 99, 100]`. -/
def sReorg : ServiceState :=
  { finalizedBlockNumber := 98, blocks := [lbW98, lbW99, lbW100], queue := [] }

/-- The worker output of the shallow-reorg witness run. -/
def outReorgW : WorkerOutput :=
  { finalizedBlockNumber := 98,
    blocks := [lbW98, lbW99],
    queue := [enqueueEntry bwX100, enqueueEntry bwX101, enqueueEntry bwX101],
    queueCleared := true,
    events := [ServiceEvent.shallowReorg 990],
    storeOps := [StoreOp.deleteRealtimeData 1 100],
    fetched := [RpcFetch.getBlockByHash "0xx100", RpcFetch.getLatestBlock],
    outcome := TaskOutcome.shallowReorgDone lbW99 1 }

/-- The forked head block of the deep-reorg witness (an alternative block 100
whose ancestry never meets the local chain). -/
def bwY100 : BlockWithTransactions :=
  { hash := "0xy100", parentHash := "0xy99", number := 100, timestamp := 1002,
    logsBloom := "0x0", transactions := [] }

def bwY99 : BlockWithTransactions :=
  { hash := "0xy99", parentHash := "0xy98", number := 99, timestamp := 992,
    logsBloom := "0x0", transactions := [] }

def bwY98 : BlockWithTransactions :=
  { hash := "0xy98", parentHash := "0xy97", number := 98, timestamp := 982,
    logsBloom := "0x0", transactions := [] }

/-- Environment of the deep-reorg witness: the foreign ancestors of the forked
block are fetchable by hash, none of them on the local chain. -/
def envDeep : RpcEnv :=
  { getLogsByBlockHash := fun _ => [], getBlockByNumber := fun _ => none,
    getBlockByHash := fun h =>
      if h = "0xy99" then some bwY99 else if h = "0xy98" then some bwY98 else none,
    latestBlock := none, bloomMatches := fun _ => false,
    filterMatches := fun l => l }

/-- The worker output of the deep-reorg witness run. -/
def outDeepW : WorkerOutput :=
  { finalizedBlockNumber := 98,
    blocks := [lbW98, lbW99, lbW100],
    queue := [],
    queueCleared := false,
    events := [ServiceEvent.deepReorg 100 2],
    storeOps := [],
    fetched := [RpcFetch.getBlockByHash "0xy99", RpcFetch.getBlockByHash "0xy98"],
    outcome := TaskOutcome.deepReorgDone 2 }

/-- Cached-interval table for the interval witnesses: contract `0xc` holds
`[10,20]@200` and `[30,40]@400` (spec scenario 6), plus an unrelated row. -/
def tableW : List CachedInterval :=
  [{ contractAddress := "0xc", startBlock := 10, endBlock := 20, endBlockTimestamp := 200 },
   { contractAddress := "0xc", startBlock := 30, endBlock := 40, endBlockTimestamp := 400 },
   { contractAddress := "0xd", startBlock := 1, endBlock := 2, endBlockTimestamp := 3 }]

/-- The interval `[20,35]@350` inserted in the interval witnesses; it bridges
the two stored intervals of contract `0xc`. -/
def ivW : CachedInterval :=
  { contractAddress := "0xc", startBlock := 20, endBlock := 35, endBlockTimestamp := 350 }

/-- The expected table after inserting `ivW` into `tableW`: the bridged
interval `[10,40]` inherits timestamp 400 from the deleted `[30,40]` row. -/
def tableW' : List CachedInterval :=
  [{ contractAddress := "0xd", startBlock := 1, endBlock := 2, endBlockTimestamp := 3 },
   { contractAddress := "0xc", startBlock := 10, endBlock := 40, endBlockTimestamp := 400 }]

/-- A second interval, `[41,50]@500`, adjacent to `[10,40]` (spec scenario 6
continues: the result is a single interval `[10,50]@500`). -/
def ivW2 : CachedInterval :=
  { contractAddress := "0xc", startBlock := 41, endBlock := 50, endBlockTimestamp := 500 }

/-- An interval `[15,30]@999` fully covered by the stored `[10,40]@400` of
contract `0xc` in `tableW'` (its endBlock differs, so no timestamp constraint
applies); used by the idempotence witness. -/
def ivCov : CachedInterval :=
  { contractAddress := "0xc", startBlock := 15, endBlock := 30, endBlockTimestamp := 999 }

/-- The expected table after inserting `ivW2` (`[41,50]@500`) into `tableW'`:
the adjacent intervals combine into `[10,50]@500`. -/
def tableW2 : List CachedInterval :=
  [{ contractAddress := "0xd", startBlock := 1, endBlock := 2, endBlockTimestamp := 3 },
   { contractAddress := "0xc", startBlock := 10, endBlock := 50, endBlockTimestamp := 500 }]

-- ### Theorems ###

/-- Any key stored by `upsertContractCall` keeps its own key after an update. -/
theorem find_key_after_update (l : List ContractCall) (k r : String)
    (h : l.any (fun c => c.key == k) = true) :
    (l.map (fun c => if c.key == k then { c with result := r } else c)).find?
      (fun c => c.key == k) = some { key := k, result := r } := by
  induction l with
  | nil => simp at h
  | cons a t ih =>
    by_cases ha : a.key = k
    · obtain ⟨ak, ar⟩ := a
      simp only at ha
      subst ha
      simp [List.find?]
    · have ht : t.any (fun c => c.key == k) = true := by
        simp only [List.any_cons, Bool.or_eq_true, beq_iff_eq] at h
        rcases h with h | h
        · exact absurd h ha
        · simpa using h
      simp only [List.map_cons]
      rw [if_neg (by simpa using ha : ¬ ((a.key == k) = true))]
      rw [List.find?_cons_of_neg _ (by simpa using ha)]
      exact ih ht

/-- No element of a list with no matching key is found by key. -/
theorem find_key_none (l : List ContractCall) (k : String)
    (h : ∀ c ∈ l, c.key ≠ k) :
    l.find? (fun c => c.key == k) = none := by
  apply List.find?_eq_none.mpr
  intro c hc
  simp [h c hc]

/-- Every row present after an `upsertContractCall` has the new key or a key
that was already in the table. -/
theorem mem_upsertContractCall (cc : ContractCall) (db : CacheDb) :
    ∀ x ∈ (upsertContractCall cc db).contractCalls,
      x.key = cc.key ∨ ∃ y ∈ db.contractCalls, x.key = y.key := by
  intro x hx
  unfold upsertContractCall at hx
  by_cases hany : db.contractCalls.any (fun c => c.key == cc.key) = true
  · simp only [hany, if_true] at hx
    rcases List.mem_map.mp hx with ⟨y, hy, hxy⟩
    by_cases hyk : y.key = cc.key
    · right; exact ⟨y, hy, by subst hxy; simp [hyk]⟩
    · right; exact ⟨y, hy, by subst hxy; simp [hyk]⟩
  · simp only [Bool.not_eq_true] at hany
    simp only [hany, Bool.false_eq_true, if_false] at hx
    rcases List.mem_append.mp hx with hy | hy
    · right; exact ⟨x, hy, rfl⟩
    · left; simpa using congrArg ContractCall.key (List.mem_singleton.mp hy)

/-- If neither the table nor the pending upserts mention key `k`, a lookup of
`k` after applying the upserts returns nothing. -/
theorem getContractCall_none_aux (calls : List ContractCall) (k : String) :
    ∀ db : CacheDb, (∀ c ∈ db.contractCalls, c.key ≠ k) →
      (∀ c ∈ calls, c.key ≠ k) →
      getContractCall k (applyContractCallUpserts calls db) = none := by
  induction calls with
  | nil =>
    intro db hdb _
    unfold applyContractCallUpserts getContractCall
    simpa using find_key_none _ _ hdb
  | cons c t ih =>
    intro db hdb hcalls
    have hstep : applyContractCallUpserts (c :: t) db =
        applyContractCallUpserts t (upsertContractCall c db) := rfl
    rw [hstep]
    apply ih
    · intro x hx
      rcases mem_upsertContractCall c db x hx with hk | ⟨y, hy, hk⟩
      · rw [hk]; exact hcalls c (List.mem_cons_self _ _)
      · rw [hk]; exact hdb y hy
    · intro x hx; exact hcalls x (List.mem_cons_of_mem _ hx)

/-- C10: `getContractCall` after `upsertContractCall` returns the stored pair,
overwriting any previous result for that key (last write wins), and a key
never upserted resolves to nothing. -/
theorem contractCall_upsert_roundtrip :
    (∀ (db : CacheDb) (k r : String),
      getContractCall k (upsertContractCall { key := k, result := r } db) =
        some { key := k, result := r }) ∧
    (∀ (calls : List ContractCall) (k : String),
      (∀ c ∈ calls, c.key ≠ k) →
      getContractCall k (applyContractCallUpserts calls emptyCacheDb) = none) := by
  constructor
  · intro db k r
    unfold getContractCall upsertContractCall
    by_cases hany : db.contractCalls.any (fun c => c.key == k) = true
    · simp only [hany, if_true]
      exact find_key_after_update db.contractCalls k r hany
    · have hall : ∀ c ∈ db.contractCalls, c.key ≠ k := by
        intro c hc hck
        exact hany (List.any_eq_true.mpr ⟨c, hc, by simp [hck]⟩)
      simp only [Bool.not_eq_true] at hany
      simp only [hany, Bool.false_eq_true, if_false]
      rw [List.find?_append, find_key_none _ _ hall]
      simp [List.find?]
  · intro calls k hcalls
    exact getContractCall_none_aux calls k emptyCacheDb (by simp [emptyCacheDb]) hcalls

/-- Witness for C10: a concrete upsert-overwrite-lookup run and a lookup of a
key that was never written. -/
theorem contractCall_upsert_roundtrip_witness :
    getContractCall "k" (upsertContractCall { key := "k", result := "r2" }
      (upsertContractCall { key := "k", result := "r1" } emptyCacheDb)) =
      some { key := "k", result := "r2" } ∧
    getContractCall "missing"
      (applyContractCallUpserts [{ key := "k", result := "r1" }] emptyCacheDb) = none := by
  constructor
  · exact contractCall_upsert_roundtrip.1
      (upsertContractCall { key := "k", result := "r1" } emptyCacheDb) "k" "r2"
  · exact contractCall_upsert_roundtrip.2 [{ key := "k", result := "r1" }] "missing"
      (by intro c hc; rcases List.mem_singleton.mp hc with rfl; decide)

/-- Every log row present after `insertLogs` was already in the table or is
one of the inserted logs with its `blockTimestamp` cleared (the INSERT's
column list omits it). -/
theorem mem_insertLogs_logs (logs : List LogRow) (db : CacheDb) :
    ∀ x ∈ (insertLogs logs db).logs,
      x ∈ db.logs ∨ ∃ l ∈ logs, x = { l with blockTimestamp := none } := by
  suffices h : ∀ acc : List LogRow,
      ∀ x ∈ logs.foldl
        (fun acc l =>
          if acc.any (fun r => r.logId == l.logId) then acc
          else acc ++ [{ l with blockTimestamp := none }]) acc,
        x ∈ acc ∨ ∃ l ∈ logs, x = { l with blockTimestamp := none } by
    intro x hx
    exact h db.logs x hx
  induction logs with
  | nil => intro acc x hx; exact Or.inl hx
  | cons l t ih =>
    intro acc x hx
    simp only [List.foldl_cons] at hx
    rcases ih _ x hx with hmem | ⟨l0, hl0, rfl⟩
    · by_cases hc : acc.any (fun r => r.logId == l.logId) = true
      · rw [if_pos hc] at hmem
        exact Or.inl hmem
      · rw [if_neg hc] at hmem
        rcases List.mem_append.mp hmem with h1 | h1
        · exact Or.inl h1
        · exact Or.inr ⟨l, List.mem_cons_self _ _, List.mem_singleton.mp h1⟩
    · exact Or.inr ⟨l0, List.mem_cons_of_mem _ hl0, rfl⟩

/-- C9: after `insertBlock` following `insertLogs`, every stored log whose
`blockHash` matches the block carries the block's timestamp (`insertBlock`
backfills `blockTimestamp`), a block with that hash is stored, and every log
row written by this realtime insert has its referenced block in the store. -/
theorem insertBlock_backfills_blockTimestamp (db : CacheDb) (block : BlockRow)
    (logs : List LogRow) (hmatch : ∀ l ∈ logs, l.blockHash = block.hash) :
    (∀ l ∈ (insertBlock block (insertLogs logs db)).logs,
      l.blockHash = block.hash → l.blockTimestamp = some block.timestamp) ∧
    (∃ b ∈ (insertBlock block (insertLogs logs db)).blocks, b.hash = block.hash) ∧
    (∀ l ∈ (insertBlock block (insertLogs logs db)).logs, l ∉ db.logs →
      ∃ b ∈ (insertBlock block (insertLogs logs db)).blocks, b.hash = l.blockHash) := by
  have hblocks : ∃ b ∈ (insertBlock block (insertLogs logs db)).blocks,
      b.hash = block.hash := by
    unfold insertBlock
    by_cases hc : (insertLogs logs db).blocks.any (fun b => b.hash == block.hash) = true
    · rcases List.any_eq_true.mp hc with ⟨b, hb, hbh⟩
      exact ⟨b, by simpa [hc] using hb, by simpa using hbh⟩
    · refine ⟨block, ?_, rfl⟩
      simp only [Bool.not_eq_true] at hc
      simp [hc]
  have hts : ∀ l ∈ (insertBlock block (insertLogs logs db)).logs,
      l.blockHash = block.hash → l.blockTimestamp = some block.timestamp := by
    intro l hl hbh
    unfold insertBlock at hl
    simp only at hl
    rcases List.mem_map.mp hl with ⟨l0, _, hl0⟩
    by_cases hc : (l0.blockHash == block.hash) = true
    · rw [if_pos hc] at hl0
      rw [← hl0]
    · rw [if_neg hc] at hl0
      subst hl0
      exact absurd (by simpa using hbh) hc
  refine ⟨hts, hblocks, ?_⟩
  intro l hl hnew
  have hhash : l.blockHash = block.hash := by
    unfold insertBlock at hl
    simp only at hl
    rcases List.mem_map.mp hl with ⟨l0, hl0mem, hl0⟩
    by_cases hc : (l0.blockHash == block.hash) = true
    · rw [if_pos hc] at hl0
      rw [← hl0]
      simpa using hc
    · rw [if_neg hc] at hl0
      subst hl0
      rcases mem_insertLogs_logs logs db l0 hl0mem with hold | ⟨lsrc, hlsrc, rfl⟩
      · exact absurd hold hnew
      · exact absurd (by simpa using hmatch lsrc hlsrc) hc
  rw [hhash]
  exact hblocks

/-- Witness for C9: a store with one unrelated log; inserting a fresh log and
then its block leaves the matching log stamped and the block present. -/
theorem insertBlock_backfills_blockTimestamp_witness :
    (∀ l ∈ (insertBlock blockRowW (insertLogs [logW1] dbW)).logs,
      l.blockHash = blockRowW.hash → l.blockTimestamp = some blockRowW.timestamp) ∧
    (∃ b ∈ (insertBlock blockRowW (insertLogs [logW1] dbW)).blocks,
      b.hash = blockRowW.hash) ∧
    (∀ l ∈ (insertBlock blockRowW (insertLogs [logW1] dbW)).logs, l ∉ dbW.logs →
      ∃ b ∈ (insertBlock blockRowW (insertLogs [logW1] dbW)).blocks,
        b.hash = l.blockHash) :=
  insertBlock_backfills_blockTimestamp dbW blockRowW [logW1]
    (by intro l hl; rcases List.mem_singleton.mp hl with rfl; rfl)

/-- C6 (amended): `start()` returns without seeding the local chain or polling
exactly when every configured log filter has a defined `endBlock` strictly
below `finalizedBlockNumber`; otherwise (setup having queued the latest block
and the finalized-block fetch succeeding) it seeds the local chain with the
finalized block's light form and begins polling. -/
theorem startService_skips_iff (cfg : NetworkConfig) (env : RpcEnv) (s : ServiceState)
    (fb : BlockWithTransactions)
    (hqueue : s.queue ≠ [])
    (hfetch : env.getBlockByNumber s.finalizedBlockNumber = some fb) :
    (startService cfg env s = Except.ok (StartOutcome.noRealtimeFilters, s) ↔
      cfg.logFilters.all (fun f =>
        match f.endBlock with
        | some endBlock => decide (endBlock < s.finalizedBlockNumber)
        | none => false) = true) ∧
    (cfg.logFilters.all (fun f =>
        match f.endBlock with
        | some endBlock => decide (endBlock < s.finalizedBlockNumber)
        | none => false) = false →
      startService cfg env s = Except.ok (StartOutcome.started,
        { s with blocks := s.blocks ++ [rpcBlockToLightBlock fb] })) := by
  have hlen : (s.queue.length == 0) = false := by
    have h0 : 0 < s.queue.length := List.length_pos.mpr hqueue
    simp only [beq_eq_false_iff_ne, ne_eq]
    omega
  by_cases hall : cfg.logFilters.all (fun f =>
      match f.endBlock with
      | some endBlock => decide (endBlock < s.finalizedBlockNumber)
      | none => false) = true
  · constructor
    · rw [hall]
      unfold startService
      simp [hall]
    · intro hfalse
      rw [hall] at hfalse
      exact absurd hfalse (by simp)
  · have hstarted : startService cfg env s = Except.ok (StartOutcome.started,
        { s with blocks := s.blocks ++ [rpcBlockToLightBlock fb] }) := by
      unfold startService
      rw [if_neg hall, if_neg (by simp [hlen]), hfetch]
    constructor
    · rw [hstarted]
      constructor
      · intro h
        cases h
      · intro h
        exact absurd h hall
    · intro _
      exact hstarted

/-- Counterexample to C6 as stated: with a single filter whose `endBlock`
equals `finalizedBlockNumber` (5 = 5, so every filter has a defined
`endBlock ≤ finalizedBlockNumber`), the claim requires `start()` to return
without polling, but the source compares with strict `<` and proceeds to
fetch the finalized block and start. -/
theorem startService_endBlock_boundary_counterexample :
    cfgEndBlockAtFinalized.logFilters.all (fun f =>
      match f.endBlock with
      | some endBlock => decide (endBlock ≤ sStart.finalizedBlockNumber)
      | none => false) = true ∧
    startService cfgEndBlockAtFinalized envStart sStart =
      Except.ok (StartOutcome.started,
        { sStart with blocks := sStart.blocks ++ [rpcBlockToLightBlock bwFinalized5] }) := by
  constructor
  · decide
  · rfl

/-- Witness for C6 (amended): a filter with `endBlock = 4 < 5` makes `start()`
skip, and the boundary filter with `endBlock = 5` makes it start. -/
theorem startService_skips_iff_witness :
    startService cfgEndBlockBelowFinalized envStart sStart =
      Except.ok (StartOutcome.noRealtimeFilters, sStart) ∧
    startService cfgEndBlockAtFinalized envStart sStart =
      Except.ok (StartOutcome.started,
        { sStart with blocks := sStart.blocks ++ [rpcBlockToLightBlock bwFinalized5] }) := by
  constructor
  · exact (startService_skips_iff cfgEndBlockBelowFinalized envStart sStart bwFinalized5
      (by decide) (by rfl)).1.mpr (by decide)
  · exact (startService_skips_iff cfgEndBlockAtFinalized envStart sStart bwFinalized5
      (by decide) (by rfl)).2 (by decide)

/-- A block that is not yet in the local chain and links onto the current head
is dispatched to the extend path (case 2 of `blockTaskWorker`). -/
theorem blockTaskWorker_extend (cfg : NetworkConfig) (env : RpcEnv) (s : ServiceState)
    (block : BlockWithTransactions) (H : LightBlock)
    (hdup : (s.blocks.any fun b => b.hash == block.hash) = false)
    (hhead : s.blocks.getLast? = some H)
    (hnum : block.number = H.number + 1)
    (hpar : block.parentHash = H.hash) :
    blockTaskWorker cfg env s block =
      extendChain cfg env s block (rpcBlockToLightBlock block) := by
  unfold blockTaskWorker
  have h1 : (s.blocks.any fun b => b.hash == (rpcBlockToLightBlock block).hash) = false :=
    hdup
  have h2 : ((rpcBlockToLightBlock block).number == H.number + 1 &&
      (rpcBlockToLightBlock block).parentHash == H.hash) = true := by
    simp [rpcBlockToLightBlock, hnum, hpar]
  simp only [h1, Bool.false_eq_true, if_false, hhead, h2, if_true]

/-- C1: on a new-head block deep enough to advance finality, the worker keeps
only local blocks at or above the new finalized block `F`, writes the cached
ranges `[finalizedBlockNumber + 1, F.number]` with `F.timestamp` for all
configured filter keys, sets `finalizedBlockNumber := F.number`, and emits
`finalityCheckpoint` with `F.timestamp`. -/
theorem blockTaskWorker_finality_advance
    (cfg : NetworkConfig) (env : RpcEnv) (s : ServiceState)
    (block : BlockWithTransactions) (out : WorkerOutput) (H F : LightBlock)
    (hdup : (s.blocks.any fun b => b.hash == block.hash) = false)
    (hhead : s.blocks.getLast? = some H)
    (hnum : block.number = H.number + 1)
    (hpar : block.parentHash = H.hash)
    (hdepth : s.finalizedBlockNumber + 2 * cfg.finalityBlockCount < block.number)
    (hF : (s.blocks ++ [rpcBlockToLightBlock block]).find?
        (fun b => b.number == s.finalizedBlockNumber + cfg.finalityBlockCount) = some F)
    (hok : blockTaskWorker cfg env s block = Except.ok out) :
    out.blocks = (s.blocks ++ [rpcBlockToLightBlock block]).filter
      (fun b => decide (F.number ≤ b.number)) ∧
    StoreOp.insertLogFilterCachedRanges (cfg.logFilters.map (fun f => f.key))
      (s.finalizedBlockNumber + 1) F.number F.timestamp ∈ out.storeOps ∧
    out.finalizedBlockNumber = F.number ∧
    ServiceEvent.finalityCheckpoint F.timestamp ∈ out.events := by
  rw [blockTaskWorker_extend cfg env s block H hdup hhead hnum hpar] at hok
  simp only [extendChain] at hok
  rw [if_pos (show s.finalizedBlockNumber + 2 * cfg.finalityBlockCount <
      (rpcBlockToLightBlock block).number from hdepth)] at hok
  rw [hF] at hok
  simp only at hok
  injection hok with hout
  subst hout
  refine ⟨rfl, ?_, rfl, ?_⟩
  · exact List.mem_append_right _ (List.mem_singleton_self _)
  · simp

/-- C7: on a new-head block whose bloom pre-screen passes but whose filtered
log list is empty, no store write that touches log/block/transaction rows is
issued, the block's light form still joins the local chain, and
`realtimeCheckpoint` fires with the block's timestamp. -/
theorem blockTaskWorker_bloom_false_positive
    (cfg : NetworkConfig) (env : RpcEnv) (s : ServiceState)
    (block : BlockWithTransactions) (out : WorkerOutput) (H : LightBlock)
    (hdup : (s.blocks.any fun b => b.hash == block.hash) = false)
    (hhead : s.blocks.getLast? = some H)
    (hnum : block.number = H.number + 1)
    (hpar : block.parentHash = H.hash)
    (hbloom : env.bloomMatches block.logsBloom = true)
    (hempty : env.filterMatches (env.getLogsByBlockHash block.hash) = [])
    (hok : blockTaskWorker cfg env s block = Except.ok out) :
    (∀ op ∈ out.storeOps, op.writesRows = false) ∧
    rpcBlockToLightBlock block ∈ out.blocks ∧
    ServiceEvent.realtimeCheckpoint block.timestamp ∈ out.events := by
  rw [blockTaskWorker_extend cfg env s block H hdup hhead hnum hpar] at hok
  have hempty' : env.filterMatches
      (env.getLogsByBlockHash (rpcBlockToLightBlock block).hash) = [] := hempty
  simp only [extendChain, hbloom, hempty', List.length_nil, lt_self_iff_false,
    if_false, if_true] at hok
  by_cases hfin : s.finalizedBlockNumber + 2 * cfg.finalityBlockCount <
      (rpcBlockToLightBlock block).number
  · rw [if_pos hfin] at hok
    rcases hfind : (s.blocks ++ [rpcBlockToLightBlock block]).find?
        (fun b => b.number == s.finalizedBlockNumber + cfg.finalityBlockCount)
      with _ | F
    · rw [hfind] at hok
      simp only at hok
      cases hok
    · rw [hfind] at hok
      simp only at hok
      injection hok with hout
      subst hout
      have hFnum : F.number = s.finalizedBlockNumber + cfg.finalityBlockCount := by
        have := List.find?_some hfind
        simpa using this
      refine ⟨?_, ?_, ?_⟩
      · intro op hop
        simp only [List.nil_append, List.mem_singleton] at hop
        subst hop
        rfl
      · apply List.mem_filter.mpr
        refine ⟨List.mem_append_right _ (List.mem_singleton_self _), ?_⟩
        have : F.number ≤ (rpcBlockToLightBlock block).number := by
          rw [hFnum]
          omega
        simpa using this
      · simp
  · rw [if_neg hfin] at hok
    injection hok with hout
    subst hout
    refine ⟨?_, ?_, ?_⟩
    · intro op hop
      simp at hop
    · exact List.mem_append_right _ (List.mem_singleton_self _)
    · simp

/-- Witness for C1: `finalityBlockCount = 1`, `finalizedBlockNumber = 0`,
local chain `[0,1,2]`; block 3 arrives (3 > 0 + 2), so finality advances to
block 1. -/
theorem blockTaskWorker_finality_advance_witness :
    outFinalityW.blocks = (sFinality.blocks ++ [rpcBlockToLightBlock bwW3]).filter
      (fun b => decide (lbW1.number ≤ b.number)) ∧
    StoreOp.insertLogFilterCachedRanges (cfgFinality.logFilters.map (fun f => f.key))
      (sFinality.finalizedBlockNumber + 1) lbW1.number lbW1.timestamp ∈
        outFinalityW.storeOps ∧
    outFinalityW.finalizedBlockNumber = lbW1.number ∧
    ServiceEvent.finalityCheckpoint lbW1.timestamp ∈ outFinalityW.events :=
  blockTaskWorker_finality_advance cfgFinality envQuiet sFinality bwW3 outFinalityW
    lbW2 lbW1 (by decide) (by decide) (by decide) (by decide) (by decide)
    (by decide) (by rfl)

/-- Witness for C7: the bloom matches block 1 but the log filter rejects the
fetched log, so nothing is written yet the chain extends and
`realtimeCheckpoint` fires. -/
theorem blockTaskWorker_bloom_false_positive_witness :
    (∀ op ∈ outBloomW.storeOps, op.writesRows = false) ∧
    rpcBlockToLightBlock bwW1 ∈ outBloomW.blocks ∧
    ServiceEvent.realtimeCheckpoint bwW1.timestamp ∈ outBloomW.events :=
  blockTaskWorker_bloom_false_positive cfgDeepFinality envBloomOnly sShort bwW1
    outBloomW lbW0 (by decide) (by decide) (by decide) (by decide) (by rfl)
    (by rfl) (by rfl)

/-- A successful extend path always resolves to an `extended` outcome. -/
theorem extendChain_ok_outcome (cfg : NetworkConfig) (env : RpcEnv) (s : ServiceState)
    (block : BlockWithTransactions) (nb : LightBlock) (out : WorkerOutput)
    (h : extendChain cfg env s block nb = Except.ok out) :
    out.outcome = TaskOutcome.extended true ∨ out.outcome = TaskOutcome.extended false := by
  simp only [extendChain] at h
  split at h
  · split at h
    · cases h
    · injection h with hout
      subst hout
      left
      rfl
  · injection h with hout
    subst hout
    right
    rfl

/-- A successful gap-fill path always resolves to the `gapFilled` outcome. -/
theorem fillGap_ok_outcome (env : RpcEnv) (s : ServiceState)
    (block : BlockWithTransactions) (nb ph : LightBlock) (out : WorkerOutput)
    (h : fillGap env s block nb ph = Except.ok out) :
    out.outcome = TaskOutcome.gapFilled := by
  simp only [fillGap] at h
  split at h
  · cases h
  · injection h with hout
    subst hout
    rfl

/-- The reorg loop, when it resolves to a deep reorg, changes nothing: same
local chain, same finalized block number, no store writes, no queue change;
it emits exactly one `deepReorg` event whose depth counts the parent fetches
performed. -/
theorem reorgLoop_deep_spec (cfg : NetworkConfig) (env : RpcEnv) (s : ServiceState)
    (orig : Nat) :
    ∀ (fuel : Nat) (canonical : List BlockWithTransactions) (cursor : LightBlock)
      (depth : Nat) (fetched : List RpcFetch) (out : WorkerOutput) (d : Nat),
      reorgLoop cfg env s orig canonical cursor depth fetched fuel = Except.ok out →
      out.outcome = TaskOutcome.deepReorgDone d →
      out.blocks = s.blocks ∧ out.finalizedBlockNumber = s.finalizedBlockNumber ∧
      out.storeOps = [] ∧ out.events = [ServiceEvent.deepReorg orig d] ∧
      out.queue = s.queue ∧ out.queueCleared = false ∧
      d + fetched.countP (fun f => f.isGetBlockByHash) =
        depth + out.fetched.countP (fun f => f.isGetBlockByHash) := by
  intro fuel
  induction fuel with
  | zero =>
    intro canonical cursor depth fetched out d hok
    cases hok
  | succ n ih =>
    intro canonical cursor depth fetched out d hok houtcome
    simp only [reorgLoop] at hok
    split at hok
    · split at hok
      · split at hok
        · cases hok
        · injection hok with hout
          subst hout
          simp at houtcome
      · split at hok
        · cases hok
        · have h := ih _ _ _ _ out d hok houtcome
          refine ⟨h.1, h.2.1, h.2.2.1, h.2.2.2.1, h.2.2.2.2.1, h.2.2.2.2.2.1, ?_⟩
          have harith := h.2.2.2.2.2.2
          rw [List.countP_append] at harith
          have hone : List.countP (fun f => f.isGetBlockByHash)
              [RpcFetch.getBlockByHash cursor.parentHash] = 1 := rfl
          rw [hone] at harith
          omega
    · injection hok with hout
      subst hout
      have hd : depth = d := by
        injection houtcome
      subst hd
      exact ⟨rfl, rfl, rfl, rfl, rfl, rfl, rfl⟩

/-- C8: a block task that resolves to a deep reorg emits `deepReorg` with
`detectedAtBlockNumber = B.number` and `minimumDepth` equal to the number of
parent-block fetches it performed, and leaves the local chain, the finalized
block number, the event store, and the queue untouched. -/
theorem blockTaskWorker_deep_reorg (cfg : NetworkConfig) (env : RpcEnv)
    (s : ServiceState) (block : BlockWithTransactions) (out : WorkerOutput) (d : Nat)
    (hok : blockTaskWorker cfg env s block = Except.ok out)
    (houtcome : out.outcome = TaskOutcome.deepReorgDone d) :
    out.blocks = s.blocks ∧ out.finalizedBlockNumber = s.finalizedBlockNumber ∧
    out.storeOps = [] ∧ out.events = [ServiceEvent.deepReorg block.number d] ∧
    out.queue = s.queue ∧ out.queueCleared = false ∧
    d = out.fetched.countP (fun f => f.isGetBlockByHash) := by
  simp only [blockTaskWorker] at hok
  split at hok
  · injection hok with hout
    subst hout
    simp at houtcome
  · split at hok
    · split at hok
      · rcases extendChain_ok_outcome _ _ _ _ _ _ hok with h | h <;>
          rw [houtcome] at h <;> simp at h
      · split at hok
        · have h := fillGap_ok_outcome _ _ _ _ _ _ hok
          rw [houtcome] at h
          simp at h
        · have h := reorgLoop_deep_spec cfg env s (rpcBlockToLightBlock block).number
            _ _ _ _ _ out d hok houtcome
          refine ⟨h.1, h.2.1, h.2.2.1, h.2.2.2.1, h.2.2.2.2.1, h.2.2.2.2.2.1, ?_⟩
          have harith := h.2.2.2.2.2.2
          simpa using harith
    · have h := reorgLoop_deep_spec cfg env s (rpcBlockToLightBlock block).number
        _ _ _ _ _ out d hok houtcome
      refine ⟨h.1, h.2.1, h.2.2.1, h.2.2.2.1, h.2.2.2.2.1, h.2.2.2.2.2.1, ?_⟩
      have harith := h.2.2.2.2.2.2
      simpa using harith

/-- Witness for C8: a forked block 100 whose foreign ancestry reaches the
finalized height 98 after two parent fetches; the task only emits
`deepReorg{100, 2}`. -/
theorem blockTaskWorker_deep_reorg_witness :
    outDeepW.blocks = sReorg.blocks ∧
    outDeepW.finalizedBlockNumber = sReorg.finalizedBlockNumber ∧
    outDeepW.storeOps = [] ∧
    outDeepW.events = [ServiceEvent.deepReorg bwY100.number 2] ∧
    outDeepW.queue = sReorg.queue ∧ outDeepW.queueCleared = false ∧
    2 = outDeepW.fetched.countP (fun f => f.isGetBlockByHash) :=
  blockTaskWorker_deep_reorg cfgDeepFinality envDeep sReorg bwY100 outDeepW 2
    (by rfl) (by rfl)

/-- The reorg loop, when it resolves to a shallow reorg with ancestor `A`:
truncates the local chain to blocks at or below `A`, deletes store data above
`A`, clears the queue and re-fills it with the fetched canonical blocks (a
parent-linked run of consecutive numbers ending in the task block) followed by
one extra latest block, and emits exactly `shallowReorg{A.timestamp}`. -/
theorem reorgLoop_shallow_spec (cfg : NetworkConfig) (env : RpcEnv) (s : ServiceState)
    (orig : Nat) (block : BlockWithTransactions)
    (hHash : ∀ h b, env.getBlockByHash h = some b → b.hash = h)
    (hLink : ∀ h b, env.getBlockByHash h = some b → ∀ h' b',
      env.getBlockByHash h' = some b' → b'.parentHash = b.hash → b.number + 1 = b'.number)
    (hTask : ∀ p, env.getBlockByHash block.parentHash = some p →
      p.number + 1 = block.number) :
    ∀ (fuel : Nat) (canonical : List BlockWithTransactions) (cursor : LightBlock)
      (depth : Nat) (fetched : List RpcFetch) (out : WorkerOutput) (A : LightBlock)
      (d : Nat),
      canonical ≠ [] →
      (∀ c, canonical.head? = some c → cursor = rpcBlockToLightBlock c) →
      List.Chain' (fun x y => y.parentHash = x.hash) canonical →
      List.Chain' (fun x y => x.number + 1 = y.number) canonical →
      canonical.getLast? = some block →
      (∀ b ∈ canonical, b = block ∨ ∃ h, env.getBlockByHash h = some b ∧
        RpcFetch.getBlockByHash h ∈ fetched) →
      reorgLoop cfg env s orig canonical cursor depth fetched fuel = Except.ok out →
      out.outcome = TaskOutcome.shallowReorgDone A d →
      out.blocks = s.blocks.filter (fun b => decide (b.number ≤ A.number)) ∧
      out.storeOps = [StoreOp.deleteRealtimeData cfg.chainId (A.number + 1)] ∧
      out.queueCleared = true ∧
      out.events = [ServiceEvent.shallowReorg A.timestamp] ∧
      A ∈ s.blocks ∧
      (∃ canonicalChain latestBlock,
        env.latestBlock = some latestBlock ∧
        out.queue = canonicalChain.map enqueueEntry ++ [enqueueEntry latestBlock] ∧
        canonicalChain ≠ [] ∧ canonicalChain.getLast? = some block ∧
        List.Chain' (fun x y => y.parentHash = x.hash) canonicalChain ∧
        List.Chain' (fun x y => x.number + 1 = y.number) canonicalChain ∧
        (∀ b ∈ canonicalChain, b = block ∨ ∃ h, env.getBlockByHash h = some b ∧
          RpcFetch.getBlockByHash h ∈ out.fetched)) := by
  intro fuel
  induction fuel with
  | zero =>
    intro _ _ _ _ out A d _ _ _ _ _ _ hok
    cases hok
  | succ n ih =>
    intro canonical cursor depth fetched out A d hne hcursor hlink hnums hlast hsrc
      hok houtcome
    obtain ⟨c0, rest, rfl⟩ := List.exists_cons_of_ne_nil hne
    have hcursor0 : cursor = rpcBlockToLightBlock c0 := hcursor c0 (by simp)
    simp only [reorgLoop] at hok
    split at hok
    · split at hok
      · rename_i A' hfind
        split at hok
        · cases hok
        · rename_i L hlatest
          injection hok with hout
          subst hout
          have hinj : A' = A ∧ depth = d := by
            injection houtcome with h1 h2
            exact ⟨h1, h2⟩
          obtain ⟨rfl, rfl⟩ := hinj
          refine ⟨rfl, rfl, rfl, rfl, List.mem_of_find?_eq_some hfind, ?_⟩
          refine ⟨c0 :: rest, L, hlatest, rfl, hne, hlast, hlink, hnums, ?_⟩
          intro b hb
          rcases hsrc b hb with hb0 | ⟨h, he, hf⟩
          · exact Or.inl hb0
          · exact Or.inr ⟨h, he, List.mem_append_left _ hf⟩
      · rename_i hfind
        split at hok
        · cases hok
        · rename_i p hp
          have hpar : cursor.parentHash = c0.parentHash := by
            rw [hcursor0]
            rfl
          rw [hpar] at hp
          have hphash : p.hash = c0.parentHash := hHash _ _ hp
          have hpnum : p.number + 1 = c0.number := by
            rcases hsrc c0 (List.mem_cons_self _ _) with hc0 | ⟨h0, he0, _⟩
            · subst hc0
              exact hTask p hp
            · exact hLink _ _ hp h0 c0 he0 hphash.symm
          have happlied := ih (p :: c0 :: rest) (rpcBlockToLightBlock p) (depth + 1)
            (fetched ++ [RpcFetch.getBlockByHash cursor.parentHash]) out A d
            (by simp)
            (by
              intro c hc
              simp only [List.head?_cons, Option.some.injEq] at hc
              rw [hc])
            (List.chain'_cons.mpr ⟨hphash.symm, hlink⟩)
            (List.chain'_cons.mpr ⟨hpnum, hnums⟩)
            (by rw [List.getLast?_cons_cons]; exact hlast)
            (by
              intro b hb
              rcases List.mem_cons.mp hb with hb0 | hb0
              · subst hb0
                refine Or.inr ⟨cursor.parentHash, ?_, List.mem_append_right _ (by simp)⟩
                rw [hpar]
                exact hp
              · rcases hsrc b hb0 with h1 | ⟨h, he, hf⟩
                · exact Or.inl h1
                · exact Or.inr ⟨h, he, List.mem_append_left _ hf⟩)
            (by rw [← hpar] at hp; simpa [hpar] using hok)
            houtcome
          exact happlied
    · injection hok with hout
      subst hout
      simp at houtcome

/-- C2: a block task that resolves to a shallow reorg with common ancestor `A`
truncates the local chain to blocks with number ≤ `A.number`, issues exactly
`deleteRealtimeData{fromBlockNumber: A.number + 1}`, clears the queue and
re-enqueues the fetched canonical blocks in ascending block-number order with
priority `MAX_SAFE_INTEGER - number`, plus one extra latest block, and emits
`shallowReorg{commonAncestorTimestamp: A.timestamp}`. -/
theorem blockTaskWorker_shallow_reorg (cfg : NetworkConfig) (env : RpcEnv)
    (s : ServiceState) (block : BlockWithTransactions) (out : WorkerOutput)
    (A : LightBlock) (d : Nat)
    (hok : blockTaskWorker cfg env s block = Except.ok out)
    (houtcome : out.outcome = TaskOutcome.shallowReorgDone A d)
    (hHash : ∀ h b, env.getBlockByHash h = some b → b.hash = h)
    (hLink : ∀ h b, env.getBlockByHash h = some b → ∀ h' b',
      env.getBlockByHash h' = some b' → b'.parentHash = b.hash → b.number + 1 = b'.number)
    (hTask : ∀ p, env.getBlockByHash block.parentHash = some p →
      p.number + 1 = block.number) :
    out.blocks = s.blocks.filter (fun b => decide (b.number ≤ A.number)) ∧
    out.storeOps = [StoreOp.deleteRealtimeData cfg.chainId (A.number + 1)] ∧
    out.queueCleared = true ∧
    out.events = [ServiceEvent.shallowReorg A.timestamp] ∧
    A ∈ s.blocks ∧
    (∃ canonicalChain latestBlock,
      env.latestBlock = some latestBlock ∧
      out.queue = canonicalChain.map enqueueEntry ++ [enqueueEntry latestBlock] ∧
      canonicalChain ≠ [] ∧ canonicalChain.getLast? = some block ∧
      List.Chain' (fun x y => y.parentHash = x.hash) canonicalChain ∧
      List.Chain' (fun x y => x.number + 1 = y.number) canonicalChain ∧
      (∀ b ∈ canonicalChain, b = block ∨ ∃ h, env.getBlockByHash h = some b ∧
        RpcFetch.getBlockByHash h ∈ out.fetched)) := by
  simp only [blockTaskWorker] at hok
  split at hok
  · injection hok with hout
    subst hout
    simp at houtcome
  · split at hok
    · split at hok
      · rcases extendChain_ok_outcome _ _ _ _ _ _ hok with h | h <;>
          rw [houtcome] at h <;> simp at h
      · split at hok
        · have h := fillGap_ok_outcome _ _ _ _ _ _ hok
          rw [houtcome] at h
          simp at h
        · exact reorgLoop_shallow_spec cfg env s (rpcBlockToLightBlock block).number
            block hHash hLink hTask _ [block] (rpcBlockToLightBlock block) 0 [] out A d
            (by simp)
            (by
              intro c hc
              simp only [List.head?_cons, Option.some.injEq] at hc
              rw [hc])
            (List.chain'_singleton _) (List.chain'_singleton _) (by simp)
            (by
              intro b hb
              exact Or.inl (List.mem_singleton.mp hb))
            hok houtcome
    · exact reorgLoop_shallow_spec cfg env s (rpcBlockToLightBlock block).number
        block hHash hLink hTask _ [block] (rpcBlockToLightBlock block) 0 [] out A d
        (by simp)
        (by
          intro c hc
          simp only [List.head?_cons, Option.some.injEq] at hc
          rw [hc])
        (List.chain'_singleton _) (List.chain'_singleton _) (by simp)
        (by
          intro b hb
          exact Or.inl (List.mem_singleton.mp hb))
        hok houtcome

/-- Witness for C2: local chain `[98,99,100]`, forked block 101 whose fetched
parent (a replacement block 100) attaches to local block 99; the task
truncates to `[98,99]`, deletes data from 100, clears and refills the queue,
and emits `shallowReorg{990}`. -/
theorem blockTaskWorker_shallow_reorg_witness :
    outReorgW.blocks = sReorg.blocks.filter (fun b => decide (b.number ≤ lbW99.number)) ∧
    outReorgW.storeOps =
      [StoreOp.deleteRealtimeData cfgDeepFinality.chainId (lbW99.number + 1)] ∧
    outReorgW.queueCleared = true ∧
    outReorgW.events = [ServiceEvent.shallowReorg lbW99.timestamp] ∧
    lbW99 ∈ sReorg.blocks ∧
    (∃ canonicalChain latestBlock,
      envReorg.latestBlock = some latestBlock ∧
      outReorgW.queue = canonicalChain.map enqueueEntry ++ [enqueueEntry latestBlock] ∧
      canonicalChain ≠ [] ∧ canonicalChain.getLast? = some bwX101 ∧
      List.Chain' (fun x y => y.parentHash = x.hash) canonicalChain ∧
      List.Chain' (fun x y => x.number + 1 = y.number) canonicalChain ∧
      (∀ b ∈ canonicalChain, b = bwX101 ∨ ∃ h, envReorg.getBlockByHash h = some b ∧
        RpcFetch.getBlockByHash h ∈ outReorgW.fetched)) :=
  blockTaskWorker_shallow_reorg cfgDeepFinality envReorg sReorg bwX101 outReorgW lbW99 1
    (by rfl) (by rfl)
    (by
      intro h b hb
      simp only [envReorg] at hb
      split at hb
      · rename_i hh
        injection hb with hbb
        subst hbb
        rw [hh]
        rfl
      · cases hb)
    (by
      intro h b hb h' b' hb' hpar
      simp only [envReorg] at hb hb'
      split at hb
      · rename_i hh
        injection hb with hbb
        subst hbb
        split at hb'
        · rename_i hh'
          injection hb' with hbb'
          subst hbb'
          exact absurd hpar (by decide)
        · cases hb'
      · cases hb)
    (by
      intro p hp
      have h : bwX100 = p := by simpa [envReorg, bwX101] using hp
      subst h
      decide)

/-- Membership through one insertion-sort step. -/
theorem mem_insertPairSorted (x y : Nat × Nat) :
    ∀ l : List (Nat × Nat), y ∈ insertPairSorted x l ↔ y = x ∨ y ∈ l := by
  intro l
  induction l with
  | nil => simp [insertPairSorted]
  | cons a t ih =>
    simp only [insertPairSorted]
    split
    · simp [List.mem_cons]
    · simp only [List.mem_cons, ih]
      tauto

/-- Membership is preserved by sorting. -/
theorem mem_sortPairs (y : Nat × Nat) : ∀ l : List (Nat × Nat), y ∈ sortPairs l ↔ y ∈ l := by
  intro l
  induction l with
  | nil => simp [sortPairs]
  | cons a t ih =>
    have hstep : sortPairs (a :: t) = insertPairSorted a (sortPairs t) := rfl
    rw [hstep, mem_insertPairSorted]
    simp only [List.mem_cons, ih]

/-- One insertion-sort step preserves sortedness by start block. -/
theorem pairwise_insertPairSorted (x : Nat × Nat) :
    ∀ l : List (Nat × Nat), List.Pairwise (fun a b : Nat × Nat => a.1 ≤ b.1) l →
      List.Pairwise (fun a b : Nat × Nat => a.1 ≤ b.1) (insertPairSorted x l) := by
  intro l
  induction l with
  | nil =>
    intro _
    simp [insertPairSorted]
  | cons a t ih =>
    intro h
    obtain ⟨ha, ht⟩ := List.pairwise_cons.mp h
    simp only [insertPairSorted]
    split
    · rename_i hxa
      refine List.pairwise_cons.mpr ⟨?_, h⟩
      intro b hb
      rcases List.mem_cons.mp hb with rfl | hb'
      · exact hxa
      · exact le_trans hxa (ha b hb')
    · rename_i hxa
      refine List.pairwise_cons.mpr ⟨?_, ih ht⟩
      intro b hb
      rcases (mem_insertPairSorted x b t).mp hb with rfl | hb'
      · omega
      · exact ha b hb'

/-- The insertion sort produces a list sorted by start block. -/
theorem sortPairs_sorted : ∀ l : List (Nat × Nat),
    List.Pairwise (fun a b : Nat × Nat => a.1 ≤ b.1) (sortPairs l) := by
  intro l
  induction l with
  | nil => simp [sortPairs]
  | cons a t ih => exact pairwise_insertPairSorted a (sortPairs t) ih

/-- The head of a merged run keeps the first start block and can only widen
the end block. -/
theorem mergeInto_head (a : Nat × Nat) (t : List (Nat × Nat)) :
    ∃ e t', mergeInto a t = (a.1, e) :: t' ∧ a.2 ≤ e := by
  induction t generalizing a with
  | nil => exact ⟨a.2, [], rfl, le_refl _⟩
  | cons b t ih =>
    simp only [mergeInto]
    split
    · obtain ⟨e, t', heq, hle⟩ := ih (a.1, max a.2 b.2)
      exact ⟨e, t', heq, le_trans (le_max_left _ _) hle⟩
    · exact ⟨a.2, mergeInto b t, rfl, le_refl _⟩

/-- Every interval in a merged sorted run starts at or after the first start. -/
theorem mergeInto_start_lb (a : Nat × Nat) (t : List (Nat × Nat))
    (hsort : List.Pairwise (fun x y : Nat × Nat => x.1 ≤ y.1) (a :: t)) :
    ∀ q ∈ mergeInto a t, a.1 ≤ q.1 := by
  induction t generalizing a with
  | nil =>
    intro q hq
    simp only [mergeInto, List.mem_singleton] at hq
    subst hq
    exact le_refl _
  | cons b t ih =>
    intro q hq
    obtain ⟨ha, hbt⟩ := List.pairwise_cons.mp hsort
    simp only [mergeInto] at hq
    split at hq
    · refine ih (a.1, max a.2 b.2) ?_ q hq
      refine List.pairwise_cons.mpr ⟨?_, (List.pairwise_cons.mp hbt).2⟩
      intro p hp
      exact ha p (List.mem_cons_of_mem _ hp)
    · rcases List.mem_cons.mp hq with rfl | hq'
      · exact le_refl _
      · exact le_trans (ha b (List.mem_cons_self _ _)) (ih b hbt q hq')

/-- Merging a sorted run yields a run that is sorted by start block and whose
consecutive intervals are separated by a gap of at least one block. -/
theorem mergeInto_canonical (a : Nat × Nat) (t : List (Nat × Nat))
    (hsort : List.Pairwise (fun x y : Nat × Nat => x.1 ≤ y.1) (a :: t)) :
    List.Pairwise (fun x y : Nat × Nat => x.1 ≤ y.1) (mergeInto a t) ∧
    List.Chain' (fun x y : Nat × Nat => x.2 + 1 < y.1) (mergeInto a t) := by
  induction t generalizing a with
  | nil => simp [mergeInto]
  | cons b t ih =>
    obtain ⟨ha, hbt⟩ := List.pairwise_cons.mp hsort
    simp only [mergeInto]
    split
    · refine ih (a.1, max a.2 b.2) ?_
      refine List.pairwise_cons.mpr ⟨?_, (List.pairwise_cons.mp hbt).2⟩
      intro p hp
      exact ha p (List.mem_cons_of_mem _ hp)
    · rename_i hgap
      have hrec := ih b hbt
      constructor
      · refine List.pairwise_cons.mpr ⟨?_, hrec.1⟩
        intro q hq
        exact le_trans (ha b (List.mem_cons_self _ _)) (mergeInto_start_lb b t hbt q hq)
      · obtain ⟨e, t', heq, _⟩ := mergeInto_head b t
        rw [heq]
        refine List.chain'_cons.mpr ⟨?_, ?_⟩
        · simp only [not_le] at hgap
          omega
        · rw [← heq]
          exact hrec.2

/-- Every merged end block was the end block of one of the input intervals. -/
theorem mergeInto_ends_subset (a : Nat × Nat) (t : List (Nat × Nat)) :
    ∀ q ∈ mergeInto a t, q.2 = a.2 ∨ q.2 ∈ t.map Prod.snd := by
  induction t generalizing a with
  | nil =>
    intro q hq
    simp only [mergeInto, List.mem_singleton] at hq
    subst hq
    exact Or.inl rfl
  | cons b t ih =>
    intro q hq
    simp only [mergeInto] at hq
    split at hq
    · rcases ih (a.1, max a.2 b.2) q hq with h | h
      · rcases max_choice a.2 b.2 with hm | hm
        · exact Or.inl (by rw [h, hm])
        · exact Or.inr (by simp only [List.map_cons, List.mem_cons]; exact Or.inl (by rw [h, hm]))
      · exact Or.inr (by simp only [List.map_cons, List.mem_cons]; exact Or.inr h)
    · rcases List.mem_cons.mp hq with rfl | hq'
      · exact Or.inl rfl
      · rcases ih b q hq' with h | h
        · exact Or.inr (by simp only [List.map_cons, List.mem_cons]; exact Or.inl h)
        · exact Or.inr (by simp only [List.map_cons, List.mem_cons]; exact Or.inr h)

/-- Merging preserves well-formedness (start ≤ end). -/
theorem mergeInto_wf (a : Nat × Nat) (t : List (Nat × Nat))
    (hwa : a.1 ≤ a.2) (hwt : ∀ p ∈ t, p.1 ≤ p.2) :
    ∀ q ∈ mergeInto a t, q.1 ≤ q.2 := by
  induction t generalizing a with
  | nil =>
    intro q hq
    simp only [mergeInto, List.mem_singleton] at hq
    subst hq
    exact hwa
  | cons b t ih =>
    intro q hq
    simp only [mergeInto] at hq
    split at hq
    · exact ih (a.1, max a.2 b.2) (le_trans hwa (le_max_left _ _))
        (fun p hp => hwt p (List.mem_cons_of_mem _ hp)) q hq
    · rcases List.mem_cons.mp hq with rfl | hq'
      · exact hwa
      · exact ih b (hwt b (List.mem_cons_self _ _))
          (fun p hp => hwt p (List.mem_cons_of_mem _ hp)) q hq'

/-- Merging a sorted run covers exactly the block numbers the input covered. -/
theorem mergeInto_covers (a : Nat × Nat) (t : List (Nat × Nat))
    (hsort : List.Pairwise (fun x y : Nat × Nat => x.1 ≤ y.1) (a :: t)) :
    ∀ n, coversAt (mergeInto a t) n ↔ coversAt (a :: t) n := by
  induction t generalizing a with
  | nil =>
    intro n
    simp [mergeInto]
  | cons b t ih =>
    intro n
    obtain ⟨ha, hbt⟩ := List.pairwise_cons.mp hsort
    simp only [mergeInto]
    split
    · rename_i hmerge
      have hsort' : List.Pairwise (fun x y : Nat × Nat => x.1 ≤ y.1)
          ((a.1, max a.2 b.2) :: t) := by
        refine List.pairwise_cons.mpr ⟨?_, (List.pairwise_cons.mp hbt).2⟩
        intro p hp
        exact ha p (List.mem_cons_of_mem _ hp)
      rw [ih (a.1, max a.2 b.2) hsort' n]
      constructor
      · rintro ⟨p, hp, h1, h2⟩
        rcases List.mem_cons.mp hp with rfl | hp'
        · by_cases hn : n ≤ a.2
          · exact ⟨a, List.mem_cons_self _ _, h1, hn⟩
          · refine ⟨b, List.mem_cons_of_mem _ (List.mem_cons_self _ _), ?_, ?_⟩
            · omega
            · rcases max_choice a.2 b.2 with hm | hm
              · rw [hm] at h2
                omega
              · rw [hm] at h2
                exact h2
        · exact ⟨p, List.mem_cons_of_mem _ (List.mem_cons_of_mem _ hp'), h1, h2⟩
      · rintro ⟨p, hp, h1, h2⟩
        rcases List.mem_cons.mp hp with rfl | hp'
        · exact ⟨(p.1, max p.2 b.2), List.mem_cons_self _ _, h1,
            le_trans h2 (le_max_left _ _)⟩
        · rcases List.mem_cons.mp hp' with rfl | hp''
          · refine ⟨(a.1, max a.2 p.2), List.mem_cons_self _ _, ?_, ?_⟩
            · exact le_trans (ha p (List.mem_cons_self _ _)) h1
            · exact le_trans h2 (le_max_right _ _)
          · exact ⟨p, List.mem_cons_of_mem _ hp'', h1, h2⟩
    · rename_i hgap
      constructor
      · rintro ⟨p, hp, h1, h2⟩
        rcases List.mem_cons.mp hp with rfl | hp'
        · exact ⟨p, List.mem_cons_self _ _, h1, h2⟩
        · obtain ⟨q, hq, hq1, hq2⟩ := (ih b hbt n).mp ⟨p, hp', h1, h2⟩
          exact ⟨q, List.mem_cons_of_mem _ hq, hq1, hq2⟩
      · rintro ⟨p, hp, h1, h2⟩
        rcases List.mem_cons.mp hp with rfl | hp'
        · exact ⟨p, List.mem_cons_self _ _, h1, h2⟩
        · obtain ⟨q, hq, hq1, hq2⟩ := (ih b hbt n).mpr ⟨p, hp', h1, h2⟩
          exact ⟨q, List.mem_cons_of_mem _ hq, hq1, hq2⟩

/-- Every input interval of a sorted merge is contained in one of the merged
intervals. -/
theorem mergeInto_contains (a : Nat × Nat) (t : List (Nat × Nat))
    (hsort : List.Pairwise (fun x y : Nat × Nat => x.1 ≤ y.1) (a :: t)) :
    ∀ p ∈ a :: t, ∃ q ∈ mergeInto a t, q.1 ≤ p.1 ∧ p.2 ≤ q.2 := by
  induction t generalizing a with
  | nil =>
    intro p hp
    simp only [List.mem_singleton] at hp
    subst hp
    exact ⟨p, by simp [mergeInto], le_refl _, le_refl _⟩
  | cons b t ih =>
    intro p hp
    obtain ⟨ha, hbt⟩ := List.pairwise_cons.mp hsort
    have hsort' : List.Pairwise (fun x y : Nat × Nat => x.1 ≤ y.1)
        ((a.1, max a.2 b.2) :: t) := by
      refine List.pairwise_cons.mpr ⟨?_, (List.pairwise_cons.mp hbt).2⟩
      intro r hr
      exact ha r (List.mem_cons_of_mem _ hr)
    simp only [mergeInto]
    split
    · rename_i hmerge
      rcases List.mem_cons.mp hp with rfl | hp'
      · obtain ⟨q, hq, hq1, hq2⟩ := ih (p.1, max p.2 b.2) hsort'
          (p.1, max p.2 b.2) (List.mem_cons_self _ _)
        exact ⟨q, hq, hq1, le_trans (le_max_left _ _) hq2⟩
      · rcases List.mem_cons.mp hp' with rfl | hp''
        · obtain ⟨q, hq, hq1, hq2⟩ := ih (a.1, max a.2 p.2) hsort'
            (a.1, max a.2 p.2) (List.mem_cons_self _ _)
          refine ⟨q, hq, le_trans hq1 (ha p (List.mem_cons_self _ _)), ?_⟩
          exact le_trans (le_max_right _ _) hq2
        · obtain ⟨q, hq, hq1, hq2⟩ := ih (a.1, max a.2 b.2) hsort' p
            (List.mem_cons_of_mem _ hp'')
          exact ⟨q, hq, hq1, hq2⟩
    · rename_i hgap
      rcases List.mem_cons.mp hp with rfl | hp'
      · exact ⟨p, List.mem_cons_self _ _, le_refl _, le_refl _⟩
      · obtain ⟨q, hq, hq1, hq2⟩ := ih b hbt p hp'
        exact ⟨q, List.mem_cons_of_mem _ hq, hq1, hq2⟩

/-- A run whose consecutive intervals are already separated is left unchanged
by the merge. -/
theorem mergeInto_fixpoint (a : Nat × Nat) (t : List (Nat × Nat))
    (hchain : List.Chain' (fun x y : Nat × Nat => x.2 + 1 < y.1) (a :: t)) :
    mergeInto a t = a :: t := by
  induction t generalizing a with
  | nil => rfl
  | cons b t ih =>
    obtain ⟨hab, hbt⟩ := List.chain'_cons.mp hchain
    simp only [mergeInto]
    rw [if_neg (by omega)]
    rw [ih b hbt]

/-- `merge_intervals` produces a run sorted by start block whose consecutive
intervals are separated by at least one block. -/
theorem merge_intervals_canonical (l : List (Nat × Nat)) :
    List.Pairwise (fun x y : Nat × Nat => x.1 ≤ y.1) (merge_intervals l) ∧
    List.Chain' (fun x y : Nat × Nat => x.2 + 1 < y.1) (merge_intervals l) := by
  unfold merge_intervals
  rcases h : sortPairs l with _ | ⟨a, t⟩
  · simp
  · have hs := sortPairs_sorted l
    rw [h] at hs
    exact mergeInto_canonical a t hs

/-- `merge_intervals` preserves well-formedness of the intervals. -/
theorem merge_intervals_wf (l : List (Nat × Nat)) (hw : ∀ p ∈ l, p.1 ≤ p.2) :
    ∀ q ∈ merge_intervals l, q.1 ≤ q.2 := by
  unfold merge_intervals
  rcases h : sortPairs l with _ | ⟨a, t⟩
  · intro q hq
    cases hq
  · have hmem : ∀ p ∈ a :: t, p.1 ≤ p.2 := by
      intro p hp
      exact hw p ((mem_sortPairs p l).mp (h ▸ hp))
    exact mergeInto_wf a t (hmem a (List.mem_cons_self _ _))
      (fun p hp => hmem p (List.mem_cons_of_mem _ hp))

/-- Every merged end block is the end block of one of the input intervals. -/
theorem merge_intervals_ends (l : List (Nat × Nat)) :
    ∀ q ∈ merge_intervals l, q.2 ∈ l.map Prod.snd := by
  unfold merge_intervals
  rcases h : sortPairs l with _ | ⟨a, t⟩
  · intro q hq
    cases hq
  · intro q hq
    have hsub : ∀ p ∈ a :: t, p ∈ l := by
      intro p hp
      exact (mem_sortPairs p l).mp (h ▸ hp)
    rcases mergeInto_ends_subset a t q hq with he | he
    · exact List.mem_map.mpr ⟨a, hsub a (List.mem_cons_self _ _), he.symm⟩
    · rcases List.mem_map.mp he with ⟨p, hp, hpe⟩
      exact List.mem_map.mpr ⟨p, hsub p (List.mem_cons_of_mem _ hp), hpe⟩

/-- `merge_intervals` covers exactly the block numbers the input covered. -/
theorem merge_intervals_covers (l : List (Nat × Nat)) :
    ∀ n, coversAt (merge_intervals l) n ↔ coversAt l n := by
  have hsortcov : ∀ n, coversAt (sortPairs l) n ↔ coversAt l n := by
    intro n
    constructor
    · rintro ⟨p, hp, h1, h2⟩
      exact ⟨p, (mem_sortPairs p l).mp hp, h1, h2⟩
    · rintro ⟨p, hp, h1, h2⟩
      exact ⟨p, (mem_sortPairs p l).mpr hp, h1, h2⟩
  intro n
  rw [← hsortcov n]
  unfold merge_intervals
  rcases h : sortPairs l with _ | ⟨a, t⟩
  · exact Iff.rfl
  · have hs := sortPairs_sorted l
    rw [h] at hs
    exact mergeInto_covers a t hs n

/-- Every input interval is contained in one of the merged intervals. -/
theorem merge_intervals_contains (l : List (Nat × Nat)) :
    ∀ p ∈ l, ∃ q ∈ merge_intervals l, q.1 ≤ p.1 ∧ p.2 ≤ q.2 := by
  intro p hp
  have hp' : p ∈ sortPairs l := (mem_sortPairs p l).mpr hp
  unfold merge_intervals
  rcases h : sortPairs l with _ | ⟨a, t⟩
  · rw [h] at hp'
    cases hp'
  · have hs := sortPairs_sorted l
    rw [h] at hs hp'
    exact mergeInto_contains a t hs p hp'

/-- Sorted and separated intervals are pairwise separated. -/
theorem pairwise_gap_of_sorted_sep (l : List (Nat × Nat))
    (hs : List.Pairwise (fun x y : Nat × Nat => x.1 ≤ y.1) l)
    (hc : List.Chain' (fun x y : Nat × Nat => x.2 + 1 < y.1) l) :
    List.Pairwise (fun x y : Nat × Nat => x.2 + 1 < y.1) l := by
  induction l with
  | nil => exact List.Pairwise.nil
  | cons a t ih =>
    refine List.pairwise_cons.mpr ⟨?_, ih (List.pairwise_cons.mp hs).2 hc.tail⟩
    intro y hy
    cases t with
    | nil => cases hy
    | cons b t' =>
      have hab : a.2 + 1 < b.1 := (List.chain'_cons.mp hc).1
      rcases List.mem_cons.mp hy with rfl | hy'
      · exact hab
      · have hby : b.1 ≤ y.1 :=
          List.rel_of_pairwise_cons (List.pairwise_cons.mp hs).2 hy'
        omega

/-- Two sorted, separated, well-formed interval runs covering the same set of
block numbers are equal. -/
theorem canonicalPairs_unique :
    ∀ (l₁ l₂ : List (Nat × Nat)),
      List.Pairwise (fun x y : Nat × Nat => x.1 ≤ y.1) l₁ →
      List.Chain' (fun x y : Nat × Nat => x.2 + 1 < y.1) l₁ →
      (∀ p ∈ l₁, p.1 ≤ p.2) →
      List.Pairwise (fun x y : Nat × Nat => x.1 ≤ y.1) l₂ →
      List.Chain' (fun x y : Nat × Nat => x.2 + 1 < y.1) l₂ →
      (∀ p ∈ l₂, p.1 ≤ p.2) →
      (∀ n, coversAt l₁ n ↔ coversAt l₂ n) → l₁ = l₂ := by
  intro l₁
  induction l₁ with
  | nil =>
    intro l₂ _ _ _ _ _ w₂ hcov
    cases l₂ with
    | nil => rfl
    | cons q t₂ =>
      exfalso
      have hq : coversAt [] q.1 := (hcov q.1).mpr
        ⟨q, List.mem_cons_self _ _, le_refl _, w₂ q (List.mem_cons_self _ _)⟩
      rcases hq with ⟨p, hp, _⟩
      cases hp
  | cons p t₁ ih =>
    intro l₂ s₁ g₁ w₁ s₂ g₂ w₂ hcov
    cases l₂ with
    | nil =>
      exfalso
      have hp : coversAt [] p.1 := (hcov p.1).mp
        ⟨p, List.mem_cons_self _ _, le_refl _, w₁ p (List.mem_cons_self _ _)⟩
      rcases hp with ⟨r, hr, _⟩
      cases hr
    | cons q t₂ =>
      have hnc₁ : ¬ coversAt (p :: t₁) (p.2 + 1) := by
        rintro ⟨r, hr, hr1, hr2⟩
        rcases List.mem_cons.mp hr with rfl | hr'
        · omega
        · cases t₁ with
          | nil => cases hr'
          | cons x t₁' =>
            have hx : p.2 + 1 < x.1 := (List.chain'_cons.mp g₁).1
            rcases List.mem_cons.mp hr' with rfl | hr''
            · omega
            · have : x.1 ≤ r.1 :=
                List.rel_of_pairwise_cons (List.pairwise_cons.mp s₁).2 hr''
              omega
      have hnc₂ : ¬ coversAt (q :: t₂) (q.2 + 1) := by
        rintro ⟨r, hr, hr1, hr2⟩
        rcases List.mem_cons.mp hr with rfl | hr'
        · omega
        · cases t₂ with
          | nil => cases hr'
          | cons x t₂' =>
            have hx : q.2 + 1 < x.1 := (List.chain'_cons.mp g₂).1
            rcases List.mem_cons.mp hr' with rfl | hr''
            · omega
            · have : x.1 ≤ r.1 :=
                List.rel_of_pairwise_cons (List.pairwise_cons.mp s₂).2 hr''
              omega
      have hstart : p.1 = q.1 := by
        have h1 : coversAt (q :: t₂) p.1 := (hcov p.1).mp
          ⟨p, List.mem_cons_self _ _, le_refl _, w₁ p (List.mem_cons_self _ _)⟩
        have h2 : coversAt (p :: t₁) q.1 := (hcov q.1).mpr
          ⟨q, List.mem_cons_self _ _, le_refl _, w₂ q (List.mem_cons_self _ _)⟩
        rcases h1 with ⟨r, hr, hr1, _⟩
        rcases h2 with ⟨r', hr', hr1', _⟩
        have hq1 : q.1 ≤ r.1 := by
          rcases List.mem_cons.mp hr with rfl | hrr
          · exact le_refl _
          · exact List.rel_of_pairwise_cons s₂ hrr
        have hp1 : p.1 ≤ r'.1 := by
          rcases List.mem_cons.mp hr' with rfl | hrr
          · exact le_refl _
          · exact List.rel_of_pairwise_cons s₁ hrr
        omega
      have hend : p.2 = q.2 := by
        by_contra hne
        rcases Nat.lt_or_ge p.2 q.2 with hlt | hge
        · apply hnc₁
          apply (hcov (p.2 + 1)).mpr
          refine ⟨q, List.mem_cons_self _ _, ?_, ?_⟩
          · have := w₁ p (List.mem_cons_self _ _)
            omega
          · omega
        · have hlt : q.2 < p.2 := by omega
          apply hnc₂
          apply (hcov (q.2 + 1)).mp
          refine ⟨p, List.mem_cons_self _ _, ?_, ?_⟩
          · have := w₂ q (List.mem_cons_self _ _)
            omega
          · omega
      have hpq : p = q := Prod.ext hstart hend
      subst hpq
      have hcov' : ∀ n, coversAt t₁ n ↔ coversAt t₂ n := by
        intro n
        have hup₁ : ∀ r ∈ t₁, p.2 < r.1 := by
          intro r hr
          cases t₁ with
          | nil => cases hr
          | cons x t₁' =>
            have hx : p.2 + 1 < x.1 := (List.chain'_cons.mp g₁).1
            rcases List.mem_cons.mp hr with rfl | hr'
            · omega
            · have : x.1 ≤ r.1 :=
                List.rel_of_pairwise_cons (List.pairwise_cons.mp s₁).2 hr'
              omega
        have hup₂ : ∀ r ∈ t₂, p.2 < r.1 := by
          intro r hr
          cases t₂ with
          | nil => cases hr
          | cons x t₂' =>
            have hx : p.2 + 1 < x.1 := (List.chain'_cons.mp g₂).1
            rcases List.mem_cons.mp hr with rfl | hr'
            · omega
            · have : x.1 ≤ r.1 :=
                List.rel_of_pairwise_cons (List.pairwise_cons.mp s₂).2 hr'
              omega
        constructor
        · rintro ⟨r, hr, h1, h2⟩
          have hn : p.2 < n := by
            have := hup₁ r hr
            omega
          have : coversAt (p :: t₂) n := (hcov n).mp
            ⟨r, List.mem_cons_of_mem _ hr, h1, h2⟩
          rcases this with ⟨r', hr', h1', h2'⟩
          rcases List.mem_cons.mp hr' with rfl | hr''
          · omega
          · exact ⟨r', hr'', h1', h2'⟩
        · rintro ⟨r, hr, h1, h2⟩
          have hn : p.2 < n := by
            have := hup₂ r hr
            omega
          have : coversAt (p :: t₁) n := (hcov n).mpr
            ⟨r, List.mem_cons_of_mem _ hr, h1, h2⟩
          rcases this with ⟨r', hr', h1', h2'⟩
          rcases List.mem_cons.mp hr' with rfl | hr''
          · omega
          · exact ⟨r', hr'', h1', h2'⟩
      have htails : t₁ = t₂ := by
        refine ih t₂ (List.pairwise_cons.mp s₁).2 g₁.tail
          (fun r hr => w₁ r (List.mem_cons_of_mem _ hr))
          (List.pairwise_cons.mp s₂).2 g₂.tail
          (fun r hr => w₂ r (List.mem_cons_of_mem _ hr)) hcov'
      rw [htails]

/-- Specification of a successful insert loop: the produced rows carry exactly
the merged pairs in order, the contract address of the new interval, and an
`endBlockTimestamp` sourced from a contributing interval (the new interval or
a deleted existing row) whose `endBlock` equals the row's `endBlock`. -/
theorem buildMergedRows_ok_spec (interval : CachedInterval)
    (existing : List CachedInterval) :
    ∀ (ps : List (Nat × Nat)) (rows : List CachedInterval),
      buildMergedRows interval existing ps = Except.ok rows →
      rows.map intervalPair = ps ∧
      ∀ r ∈ rows, r.contractAddress = interval.contractAddress ∧
        mergedRowFor interval existing (intervalPair r) = Except.ok r ∧
        ∃ c ∈ interval :: existing, c.endBlock = r.endBlock ∧
          r.endBlockTimestamp = c.endBlockTimestamp := by
  intro ps
  induction ps with
  | nil =>
    intro rows h
    have hrows : rows = [] := by
      rw [buildMergedRows, List.mapM_nil] at h
      injection h with h'
      exact h'.symm
    subst hrows
    exact ⟨rfl, by intro r hr; cases hr⟩
  | cons p ps ih =>
    intro rows h
    rw [buildMergedRows, List.mapM_cons] at h
    cases hx : mergedRowFor interval existing p with
    | error e =>
      rw [hx] at h
      cases h
    | ok r0 =>
      rw [hx] at h
      cases hrest : ps.mapM (mergedRowFor interval existing) with
      | error e =>
        rw [hrest] at h
        cases h
      | ok rows' =>
        rw [hrest] at h
        have hrows : rows = r0 :: rows' := by
          injection h with h'
          exact h'.symm
        subst hrows
        have hr0 : intervalPair r0 = p ∧ r0.contractAddress = interval.contractAddress ∧
            ∃ c ∈ interval :: existing, c.endBlock = r0.endBlock ∧
              r0.endBlockTimestamp = c.endBlockTimestamp := by
          unfold mergedRowFor at hx
          rcases hfind : (interval :: existing).find?
              (fun o => o.endBlock == p.2) with _ | c
          · rw [hfind] at hx
            cases hx
          · rw [hfind] at hx
            injection hx with hx'
            subst hx'
            refine ⟨rfl, rfl, c, List.mem_of_find?_eq_some hfind, ?_, rfl⟩
            have := List.find?_some hfind
            simpa using this
        obtain ⟨ihmap, ihrows⟩ := ih rows' hrest
        refine ⟨?_, ?_⟩
        · rw [List.map_cons, ihmap, hr0.1]
        · intro r hr
          rcases List.mem_cons.mp hr with rfl | hr'
          · refine ⟨hr0.2.1, ?_, hr0.2.2⟩
            rw [hr0.1]
            exact hx
          · exact ihrows r hr'

/-- If some merged pair has no contributing interval with a matching
`endBlock`, the insert loop aborts with an error (nothing is inserted). -/
theorem buildMergedRows_error_of_missing (interval : CachedInterval)
    (existing : List CachedInterval) :
    ∀ ps : List (Nat × Nat),
      (∃ p ∈ ps, (interval :: existing).find?
        (fun o => o.endBlock == p.2) = none) →
      ∃ msg, buildMergedRows interval existing ps = Except.error msg := by
  intro ps
  induction ps with
  | nil =>
    rintro ⟨p, hp, _⟩
    cases hp
  | cons p0 ps ih =>
    rintro ⟨p, hp, hfind⟩
    rcases List.mem_cons.mp hp with rfl | hp'
    · refine ⟨"Old interval with endBlock not found", ?_⟩
      rw [buildMergedRows, List.mapM_cons]
      have hx : mergedRowFor interval existing p =
          Except.error "Old interval with endBlock not found" := by
        unfold mergedRowFor
        rw [hfind]
      rw [hx]
      rfl
    · obtain ⟨m, hm⟩ := ih ⟨p, hp', hfind⟩
      cases hx : mergedRowFor interval existing p0 with
      | error e =>
        refine ⟨e, ?_⟩
        rw [buildMergedRows, List.mapM_cons, hx]
        rfl
      | ok r0 =>
        refine ⟨m, ?_⟩
        rw [buildMergedRows, List.mapM_cons, hx]
        have hm' : ps.mapM (mergedRowFor interval existing) = Except.error m := hm
        rw [hm']
        rfl

/-- If each row of `l` is reproduced by the row builder at its own pair, the
insert loop over `l`'s pairs returns exactly `l`. -/
theorem buildMergedRows_self (interval : CachedInterval) (existing : List CachedInterval) :
    ∀ l : List CachedInterval,
      (∀ r ∈ l, mergedRowFor interval existing (intervalPair r) = Except.ok r) →
      buildMergedRows interval existing (l.map intervalPair) = Except.ok l := by
  intro l
  induction l with
  | nil =>
    intro _
    rfl
  | cons r t ih =>
    intro h
    rw [List.map_cons, buildMergedRows, List.mapM_cons, h r (List.mem_cons_self _ _)]
    have ht : (t.map intervalPair).mapM (mergedRowFor interval existing) =
        Except.ok t := ih (fun x hx => h x (List.mem_cons_of_mem _ hx))
    rw [ht]
    rfl

/-- In a list of rows with pairwise distinct end blocks, the find-by-endBlock
lookup of a member returns that member. -/
theorem find?_endBlock_eq (l : List CachedInterval) (r : CachedInterval)
    (hinj : List.Pairwise (fun x y : CachedInterval => x.endBlock ≠ y.endBlock) l)
    (hr : r ∈ l) :
    l.find? (fun o => o.endBlock == r.endBlock) = some r := by
  induction l with
  | nil => cases hr
  | cons x t ih =>
    rcases List.mem_cons.mp hr with rfl | hr'
    · rw [List.find?_cons_of_pos _ (by simp)]
    · have hne : x.endBlock ≠ r.endBlock := List.rel_of_pairwise_cons hinj hr'
      rw [List.find?_cons_of_neg _ (by simpa using hne)]
      exact ih (List.pairwise_cons.mp hinj).2 hr'

/-- A successful `insertCachedInterval` either hit an empty contract (plain
insert) or went through the merge path; in both cases the resulting table is
the untouched rows of other contracts followed by the inserted rows. -/
theorem insertCachedInterval_ok_decomp (i : CachedInterval)
    (table table' : List CachedInterval)
    (hok : insertCachedInterval i table = Except.ok table') :
    (table.filter (fun r => r.contractAddress == i.contractAddress) = [] ∧
      table' = table.filter (fun r => !(r.contractAddress == i.contractAddress)) ++ [i]) ∨
    (∃ rows,
      buildMergedRows i (table.filter (fun r => r.contractAddress == i.contractAddress))
        (merge_intervals
          ((table.filter (fun r => r.contractAddress == i.contractAddress)).map
            intervalPair ++ [intervalPair i])) = Except.ok rows ∧
      table' = table.filter (fun r => !(r.contractAddress == i.contractAddress)) ++ rows) := by
  simp only [insertCachedInterval] at hok
  split at hok
  · rename_i hemp
    injection hok with h'
    exact Or.inl ⟨List.isEmpty_iff.mp hemp, h'.symm⟩
  · rename_i hemp
    cases hb : buildMergedRows i
        (table.filter (fun r => r.contractAddress == i.contractAddress))
        (merge_intervals
          ((table.filter (fun r => r.contractAddress == i.contractAddress)).map
            intervalPair ++ [intervalPair i])) with
    | error e =>
      rw [hb] at hok
      cases hok
    | ok rows =>
      rw [hb] at hok
      injection hok with h'
      exact Or.inr ⟨rows, rfl, h'.symm⟩

/-- Filtering the resulting table by contract: the inserted rows are exactly
the contract's rows, and the other contracts' rows are untouched. -/
theorem insertCachedInterval_filters (i : CachedInterval) (table rows : List CachedInterval)
    (hrows : ∀ r ∈ rows, r.contractAddress = i.contractAddress) :
    (table.filter (fun r => !(r.contractAddress == i.contractAddress)) ++ rows).filter
      (fun r => r.contractAddress == i.contractAddress) = rows ∧
    (table.filter (fun r => !(r.contractAddress == i.contractAddress)) ++ rows).filter
      (fun r => !(r.contractAddress == i.contractAddress)) =
      table.filter (fun r => !(r.contractAddress == i.contractAddress)) := by
  constructor
  · rw [List.filter_append]
    have h1 : (table.filter (fun r => !(r.contractAddress == i.contractAddress))).filter
        (fun r => r.contractAddress == i.contractAddress) = [] := by
      apply List.filter_eq_nil_iff.mpr
      intro a ha
      have := (List.mem_filter.mp ha).2
      simp only [Bool.not_eq_true'] at this
      simp [this]
    have h2 : rows.filter (fun r => r.contractAddress == i.contractAddress) = rows :=
      List.filter_eq_self.mpr (fun a ha => by simp [hrows a ha])
    rw [h1, h2, List.nil_append]
  · rw [List.filter_append]
    have h1 : (table.filter (fun r => !(r.contractAddress == i.contractAddress))).filter
        (fun r => !(r.contractAddress == i.contractAddress)) =
        table.filter (fun r => !(r.contractAddress == i.contractAddress)) := by
      apply List.filter_eq_self.mpr
      intro a ha
      exact (List.mem_filter.mp ha).2
    have h2 : rows.filter (fun r => !(r.contractAddress == i.contractAddress)) = [] := by
      apply List.filter_eq_nil_iff.mpr
      intro a ha
      simp [hrows a ha]
    rw [h1, h2, List.append_nil]

/-- C3: after any `insertCachedInterval`, the stored intervals of the touched
contract are pairwise non-overlapping and non-adjacent (`min(b,d)+1 <
max(a,c)`), every stored row's `endBlockTimestamp` comes from a contributing
interval whose `endBlock` matches, the stored intervals cover exactly the
union of the old intervals and the new one (overlapping or adjacent intervals
were combined), and other contracts' rows are untouched.  Since every table
state reachable by a sequence of inserts is the result of its last insert,
the invariant holds after any sequence of calls. -/
theorem insertCachedInterval_merge_invariant
    (table : List CachedInterval) (i : CachedInterval) (table' : List CachedInterval)
    (hok : insertCachedInterval i table = Except.ok table') :
    List.Pairwise (fun x y : CachedInterval =>
      min x.endBlock y.endBlock + 1 < max x.startBlock y.startBlock)
      (table'.filter (fun r => r.contractAddress == i.contractAddress)) ∧
    (∀ r ∈ table'.filter (fun r => r.contractAddress == i.contractAddress),
      ∃ c ∈ i :: table.filter (fun r => r.contractAddress == i.contractAddress),
        c.endBlock = r.endBlock ∧ r.endBlockTimestamp = c.endBlockTimestamp) ∧
    (∀ n : Nat,
      (∃ r ∈ table'.filter (fun r => r.contractAddress == i.contractAddress),
        r.startBlock ≤ n ∧ n ≤ r.endBlock) ↔
      (∃ c ∈ i :: table.filter (fun r => r.contractAddress == i.contractAddress),
        c.startBlock ≤ n ∧ n ≤ c.endBlock)) ∧
    table'.filter (fun r => !(r.contractAddress == i.contractAddress)) =
      table.filter (fun r => !(r.contractAddress == i.contractAddress)) := by
  rcases insertCachedInterval_ok_decomp i table table' hok with
    ⟨hemp, rfl⟩ | ⟨rows, hb, rfl⟩
  · have hst := insertCachedInterval_filters i table [i]
      (by
        intro r hr
        rcases List.mem_singleton.mp hr with rfl
        rfl)
    rw [hst.1, hst.2, hemp]
    refine ⟨by simp, ?_, ?_, rfl⟩
    · intro r hr
      rcases List.mem_singleton.mp hr with rfl
      exact ⟨r, List.mem_cons_self _ _, rfl, rfl⟩
    · intro n
      simp
  · have hspec := buildMergedRows_ok_spec i
      (table.filter (fun r => r.contractAddress == i.contractAddress)) _ rows hb
    have haddr : ∀ r ∈ rows, r.contractAddress = i.contractAddress :=
      fun r hr => (hspec.2 r hr).1
    have hst := insertCachedInterval_filters i table rows haddr
    rw [hst.1, hst.2]
    have hmerged := hspec.1
    have hcanon := merge_intervals_canonical
      ((table.filter (fun r => r.contractAddress == i.contractAddress)).map
        intervalPair ++ [intervalPair i])
    refine ⟨?_, ?_, ?_, rfl⟩
    · have hgap : List.Pairwise (fun x y : Nat × Nat => x.2 + 1 < y.1)
          (rows.map intervalPair) := by
        rw [hmerged]
        exact pairwise_gap_of_sorted_sep _ hcanon.1 hcanon.2
      have hrows := List.pairwise_map.mp hgap
      refine hrows.imp ?_
      intro a b hab
      simp only [intervalPair] at hab
      have h1 : min a.endBlock b.endBlock ≤ a.endBlock := min_le_left _ _
      have h2 : b.startBlock ≤ max a.startBlock b.startBlock := le_max_right _ _
      omega
    · intro r hr
      exact (hspec.2 r hr).2.2
    · intro n
      have hcov : coversAt (rows.map intervalPair) n ↔
          coversAt ((table.filter (fun r => r.contractAddress == i.contractAddress)).map
            intervalPair ++ [intervalPair i]) n := by
        rw [hmerged]
        exact merge_intervals_covers _ n
      constructor
      · rintro ⟨r, hr, h1, h2⟩
        have hin : coversAt (rows.map intervalPair) n :=
          ⟨intervalPair r, List.mem_map_of_mem _ hr, h1, h2⟩
        rcases hcov.mp hin with ⟨q, hq, hq1, hq2⟩
        rcases List.mem_append.mp hq with hq' | hq'
        · rcases List.mem_map.mp hq' with ⟨c, hc, rfl⟩
          exact ⟨c, List.mem_cons_of_mem _ hc, hq1, hq2⟩
        · rcases List.mem_singleton.mp hq' with rfl
          exact ⟨i, List.mem_cons_self _ _, hq1, hq2⟩
      · rintro ⟨c, hc, h1, h2⟩
        have hc' : coversAt ((table.filter
            (fun r => r.contractAddress == i.contractAddress)).map intervalPair ++
              [intervalPair i]) n := by
          rcases List.mem_cons.mp hc with rfl | hc'
          · exact ⟨intervalPair c, List.mem_append_right _ (List.mem_singleton_self _),
              h1, h2⟩
          · exact ⟨intervalPair c, List.mem_append_left _ (List.mem_map_of_mem _ hc'),
              h1, h2⟩
        rcases hcov.mpr hc' with ⟨q, hq, hq1, hq2⟩
        rcases List.mem_map.mp hq with ⟨r, hr, rfl⟩
        exact ⟨r, hr, hq1, hq2⟩

/-- Witness for C3: inserting `[20,35]@350` into `{[10,20]@200, [30,40]@400}`
(contract 0xc) succeeds; the resulting table is checked by the theorem. -/
theorem insertCachedInterval_merge_invariant_witness :
    List.Pairwise (fun x y : CachedInterval =>
      min x.endBlock y.endBlock + 1 < max x.startBlock y.startBlock)
      (tableW'.filter (fun r => r.contractAddress == ivW.contractAddress)) ∧
    (∀ r ∈ tableW'.filter (fun r => r.contractAddress == ivW.contractAddress),
      ∃ c ∈ ivW :: tableW.filter (fun r => r.contractAddress == ivW.contractAddress),
        c.endBlock = r.endBlock ∧ r.endBlockTimestamp = c.endBlockTimestamp) ∧
    (∀ n : Nat,
      (∃ r ∈ tableW'.filter (fun r => r.contractAddress == ivW.contractAddress),
        r.startBlock ≤ n ∧ n ≤ r.endBlock) ↔
      (∃ c ∈ ivW :: tableW.filter (fun r => r.contractAddress == ivW.contractAddress),
        c.startBlock ≤ n ∧ n ≤ c.endBlock)) ∧
    tableW'.filter (fun r => !(r.contractAddress == ivW.contractAddress)) =
      tableW.filter (fun r => !(r.contractAddress == ivW.contractAddress)) :=
  insertCachedInterval_merge_invariant tableW ivW tableW' (by rfl)

/-- C5: whenever the interval-merge write succeeds, every inserted row's
`endBlockTimestamp` is sourced from a contributing interval (the new interval
or a deleted existing row) whose `endBlock` equals the row's `endBlock`; and
whenever some merged pair has no such contributor, the insert loop throws
instead of inserting a row with a fabricated timestamp. -/
theorem insertCachedInterval_timestamp_provenance :
    (∀ (table : List CachedInterval) (i : CachedInterval) (table' : List CachedInterval),
      insertCachedInterval i table = Except.ok table' →
      ∀ r ∈ table'.filter (fun r => r.contractAddress == i.contractAddress),
        ∃ c ∈ i :: table.filter (fun r => r.contractAddress == i.contractAddress),
          c.endBlock = r.endBlock ∧ r.endBlockTimestamp = c.endBlockTimestamp) ∧
    (∀ (i : CachedInterval) (existing : List CachedInterval) (ps : List (Nat × Nat)),
      (∃ p ∈ ps, (i :: existing).find? (fun o => o.endBlock == p.2) = none) →
      ∃ msg, buildMergedRows i existing ps = Except.error msg) := by
  constructor
  · intro table i table' hok
    rcases insertCachedInterval_ok_decomp i table table' hok with
      ⟨hemp, rfl⟩ | ⟨rows, hb, rfl⟩
    · have hst := insertCachedInterval_filters i table [i]
        (by
          intro r hr
          rcases List.mem_singleton.mp hr with rfl
          rfl)
      rw [hst.1]
      intro r hr
      rcases List.mem_singleton.mp hr with rfl
      exact ⟨r, List.mem_cons_self _ _, rfl, rfl⟩
    · have hspec := buildMergedRows_ok_spec i
        (table.filter (fun r => r.contractAddress == i.contractAddress)) _ rows hb
      have haddr : ∀ r ∈ rows, r.contractAddress = i.contractAddress :=
        fun r hr => (hspec.2 r hr).1
      rw [(insertCachedInterval_filters i table rows haddr).1]
      intro r hr
      exact (hspec.2 r hr).2.2
  · exact fun i existing ps h => buildMergedRows_error_of_missing i existing ps h

/-- Witness for C5: the provenance clause at the scenario-6 insert, and the
hard failure of the row builder on a pair `(0,5)` with no contributor whose
`endBlock` is 5. -/
theorem insertCachedInterval_timestamp_provenance_witness :
    (∀ r ∈ tableW'.filter (fun r => r.contractAddress == ivW.contractAddress),
      ∃ c ∈ ivW :: tableW.filter (fun r => r.contractAddress == ivW.contractAddress),
        c.endBlock = r.endBlock ∧ r.endBlockTimestamp = c.endBlockTimestamp) ∧
    (∃ msg, buildMergedRows ivW [] [(0, 5)] = Except.error msg) :=
  ⟨insertCachedInterval_timestamp_provenance.1 tableW ivW tableW' (by rfl),
   insertCachedInterval_timestamp_provenance.2 ivW [] [(0, 5)]
     ⟨(0, 5), List.mem_singleton_self _, by rfl⟩⟩

/-- Any two distinct members of a pairwise-related list are related one way or
the other. -/
theorem pairwise_forall_ne {α : Type} {R : α → α → Prop} :
    ∀ l : List α, l.Pairwise R → ∀ a ∈ l, ∀ b ∈ l, a ≠ b → R a b ∨ R b a := by
  intro l
  induction l with
  | nil =>
    intro _ a ha
    cases ha
  | cons x t ih =>
    intro hl a ha b hb hne
    obtain ⟨hx, ht⟩ := List.pairwise_cons.mp hl
    rcases List.mem_cons.mp ha with rfl | ha'
    · rcases List.mem_cons.mp hb with rfl | hb'
      · exact absurd rfl hne
      · exact Or.inl (hx b hb')
    · rcases List.mem_cons.mp hb with rfl | hb'
      · exact Or.inr (hx a ha')
      · exact ih ht a ha' b hb' hne

/-- Inserting an interval whose range is already contained in a stored
interval of the same contract (with matching timestamp when the end blocks
coincide) rewrites the table to exactly the same stored set: other contracts'
rows first (they are untouched), then the contract's rows unchanged. -/
theorem insertCachedInterval_covered_noop
    (table : List CachedInterval) (i : CachedInterval)
    (hwfi : i.startBlock ≤ i.endBlock)
    (hsorted : List.Pairwise (fun x y : Nat × Nat => x.1 ≤ y.1)
      ((table.filter (fun r => r.contractAddress == i.contractAddress)).map intervalPair))
    (hsep : List.Chain' (fun x y : Nat × Nat => x.2 + 1 < y.1)
      ((table.filter (fun r => r.contractAddress == i.contractAddress)).map intervalPair))
    (hwf : ∀ r ∈ table.filter (fun r => r.contractAddress == i.contractAddress),
      r.startBlock ≤ r.endBlock)
    (hcont : ∃ c ∈ table.filter (fun r => r.contractAddress == i.contractAddress),
      c.startBlock ≤ i.startBlock ∧ i.endBlock ≤ c.endBlock ∧
        (i.endBlock = c.endBlock → i.endBlockTimestamp = c.endBlockTimestamp)) :
    insertCachedInterval i table = Except.ok
      (table.filter (fun r => !(r.contractAddress == i.contractAddress)) ++
       table.filter (fun r => r.contractAddress == i.contractAddress)) := by
  set ex := table.filter (fun r => r.contractAddress == i.contractAddress) with hex
  obtain ⟨c, hc, hc1, hc2, hc3⟩ := hcont
  have hne : ex ≠ [] := by
    intro h
    rw [h] at hc
    cases hc
  have hinwf : ∀ p ∈ ex.map intervalPair ++ [intervalPair i], p.1 ≤ p.2 := by
    intro p hp
    rcases List.mem_append.mp hp with hp' | hp'
    · rcases List.mem_map.mp hp' with ⟨r, hr, rfl⟩
      exact hwf r hr
    · rcases List.mem_singleton.mp hp' with rfl
      exact hwfi
  have hmerged : merge_intervals (ex.map intervalPair ++ [intervalPair i]) =
      ex.map intervalPair := by
    have hcanon := merge_intervals_canonical (ex.map intervalPair ++ [intervalPair i])
    refine canonicalPairs_unique _ _ hcanon.1 hcanon.2
      (merge_intervals_wf _ hinwf) hsorted hsep
      (by
        intro p hp
        rcases List.mem_map.mp hp with ⟨r, hr, rfl⟩
        exact hwf r hr)
      ?_
    intro n
    rw [merge_intervals_covers _ n]
    constructor
    · rintro ⟨p, hp, h1, h2⟩
      rcases List.mem_append.mp hp with hp' | hp'
      · exact ⟨p, hp', h1, h2⟩
      · rcases List.mem_singleton.mp hp' with rfl
        exact ⟨intervalPair c, List.mem_map_of_mem _ hc, le_trans hc1 h1,
          le_trans h2 hc2⟩
    · rintro ⟨p, hp, h1, h2⟩
      exact ⟨p, List.mem_append_left _ hp, h1, h2⟩
  have hgapRows : List.Pairwise
      (fun a b : CachedInterval => a.endBlock + 1 < b.startBlock) ex :=
    List.pairwise_map.mp (pairwise_gap_of_sorted_sep _ hsorted hsep)
  have hends : List.Pairwise
      (fun x y : CachedInterval => x.endBlock ≠ y.endBlock) ex := by
    refine hgapRows.imp_of_mem ?_
    intro a b ha hb hab
    have hwb := hwf b hb
    omega
  have huniq : ∀ r ∈ ex, i.endBlock = r.endBlock → r = c := by
    intro r hr hie
    by_contra hne'
    rcases pairwise_forall_ne ex hgapRows r hr c hc hne' with h | h
    · omega
    · have hwr := hwf r hr
      omega
  have hrowsok : ∀ r ∈ ex, mergedRowFor i ex (intervalPair r) = Except.ok r := by
    intro r hr
    have hraddr : r.contractAddress = i.contractAddress := by
      rw [hex] at hr
      have := (List.mem_filter.mp hr).2
      simpa using this
    unfold mergedRowFor
    simp only [intervalPair]
    by_cases hie : i.endBlock = r.endBlock
    · rw [List.find?_cons_of_pos _ (by simpa using hie)]
      have hrc : r = c := huniq r hr hie
      have hts : i.endBlockTimestamp = r.endBlockTimestamp := by
        rw [hrc]
        apply hc3
        rw [← hrc]
        exact hie
      have hrec : CachedInterval.mk i.contractAddress r.startBlock r.endBlock
          i.endBlockTimestamp = r := by
        rw [← hraddr, hts]
      exact congrArg Except.ok hrec
    · rw [List.find?_cons_of_neg _ (by simpa using hie)]
      rw [find?_endBlock_eq ex r hends hr]
      have hrec : CachedInterval.mk i.contractAddress r.startBlock r.endBlock
          r.endBlockTimestamp = r := by
        rw [← hraddr]
      exact congrArg Except.ok hrec
  have hrows : buildMergedRows i ex (ex.map intervalPair) = Except.ok ex :=
    buildMergedRows_self i ex ex hrowsok
  have hne' : ex.isEmpty = false := by
    rcases hxe : ex with _ | _
    · exact absurd hxe hne
    · rfl
  unfold insertCachedInterval
  rw [← hex]
  rw [if_neg (by simp [hne'])]
  rw [hmerged]
  show Except.map
      (fun rows => List.filter (fun r => !(r.contractAddress == i.contractAddress)) table ++
        rows)
      (buildMergedRows i ex (List.map intervalPair ex)) = _
  rw [hrows]
  rfl

/-- C4: inserting an interval whose range is already covered by the stored
intervals of its contract (with matching `endBlockTimestamp` when the end
blocks coincide) leaves the stored set for that contract unchanged, and
applying the same insert twice yields the same stored table as applying it
once. -/
theorem insertCachedInterval_idempotent :
    (∀ (table : List CachedInterval) (i : CachedInterval),
      i.startBlock ≤ i.endBlock →
      List.Pairwise (fun x y : Nat × Nat => x.1 ≤ y.1)
        ((table.filter (fun r => r.contractAddress == i.contractAddress)).map
          intervalPair) →
      List.Chain' (fun x y : Nat × Nat => x.2 + 1 < y.1)
        ((table.filter (fun r => r.contractAddress == i.contractAddress)).map
          intervalPair) →
      (∀ r ∈ table.filter (fun r => r.contractAddress == i.contractAddress),
        r.startBlock ≤ r.endBlock) →
      (∃ c ∈ table.filter (fun r => r.contractAddress == i.contractAddress),
        c.startBlock ≤ i.startBlock ∧ i.endBlock ≤ c.endBlock ∧
          (i.endBlock = c.endBlock → i.endBlockTimestamp = c.endBlockTimestamp)) →
      insertCachedInterval i table = Except.ok
        (table.filter (fun r => !(r.contractAddress == i.contractAddress)) ++
         table.filter (fun r => r.contractAddress == i.contractAddress))) ∧
    (∀ (table : List CachedInterval) (i : CachedInterval) (table₁ : List CachedInterval),
      i.startBlock ≤ i.endBlock →
      (∀ r ∈ table.filter (fun r => r.contractAddress == i.contractAddress),
        r.startBlock ≤ r.endBlock) →
      insertCachedInterval i table = Except.ok table₁ →
      insertCachedInterval i table₁ = Except.ok table₁) := by
  constructor
  · exact fun table i hwfi hs hsep hwf hcont =>
      insertCachedInterval_covered_noop table i hwfi hs hsep hwf hcont
  · intro table i table₁ hwfi hwf hok
    rcases insertCachedInterval_ok_decomp i table table₁ hok with
      ⟨hemp, rfl⟩ | ⟨rows, hb, rfl⟩
    · have hfil := insertCachedInterval_filters i table [i]
        (by
          intro r hr
          rcases List.mem_singleton.mp hr with rfl
          rfl)
      have hres := insertCachedInterval_covered_noop
        (table.filter (fun r => !(r.contractAddress == i.contractAddress)) ++ [i]) i hwfi
        (by rw [hfil.1]; simp)
        (by rw [hfil.1]; simp)
        (by
          rw [hfil.1]
          intro r hr
          rcases List.mem_singleton.mp hr with rfl
          exact hwfi)
        (by
          rw [hfil.1]
          exact ⟨i, List.mem_singleton_self _, le_refl _, le_refl _, fun _ => rfl⟩)
      rw [hfil.1, hfil.2] at hres
      exact hres
    · have hspec := buildMergedRows_ok_spec i
        (table.filter (fun r => r.contractAddress == i.contractAddress)) _ rows hb
      have haddr : ∀ r ∈ rows, r.contractAddress = i.contractAddress :=
        fun r hr => (hspec.2 r hr).1
      have hfil := insertCachedInterval_filters i table rows haddr
      have hcanon := merge_intervals_canonical
        ((table.filter (fun r => r.contractAddress == i.contractAddress)).map
          intervalPair ++ [intervalPair i])
      have hmap := hspec.1
      have hinwf : ∀ p ∈ (table.filter
          (fun r => r.contractAddress == i.contractAddress)).map intervalPair ++
            [intervalPair i], p.1 ≤ p.2 := by
        intro p hp
        rcases List.mem_append.mp hp with hp' | hp'
        · rcases List.mem_map.mp hp' with ⟨r, hr, rfl⟩
          exact hwf r hr
        · rcases List.mem_singleton.mp hp' with rfl
          exact hwfi
      have h1 : List.Pairwise (fun x y : Nat × Nat => x.1 ≤ y.1)
          (rows.map intervalPair) := by
        rw [hmap]
        exact hcanon.1
      have h2 : List.Chain' (fun x y : Nat × Nat => x.2 + 1 < y.1)
          (rows.map intervalPair) := by
        rw [hmap]
        exact hcanon.2
      have h3 : ∀ r ∈ rows, r.startBlock ≤ r.endBlock := by
        intro r hr
        have hmem : intervalPair r ∈ merge_intervals
            ((table.filter (fun r => r.contractAddress == i.contractAddress)).map
              intervalPair ++ [intervalPair i]) := by
          rw [← hmap]
          exact List.mem_map_of_mem _ hr
        exact merge_intervals_wf _ hinwf _ hmem
      have h4 : ∃ c ∈ rows, c.startBlock ≤ i.startBlock ∧ i.endBlock ≤ c.endBlock ∧
          (i.endBlock = c.endBlock → i.endBlockTimestamp = c.endBlockTimestamp) := by
        rcases merge_intervals_contains
          ((table.filter (fun r => r.contractAddress == i.contractAddress)).map
            intervalPair ++ [intervalPair i]) (intervalPair i)
          (List.mem_append_right _ (List.mem_singleton_self _)) with ⟨q, hq, hq1, hq2⟩
        rw [← hmap] at hq
        rcases List.mem_map.mp hq with ⟨cc, hcc, rfl⟩
        refine ⟨cc, hcc, hq1, hq2, ?_⟩
        intro hieq
        have hrow := (hspec.2 cc hcc).2.1
        unfold mergedRowFor at hrow
        simp only [intervalPair] at hrow
        rw [List.find?_cons_of_pos _ (by simpa using hieq)] at hrow
        injection hrow with hrow'
        have hts := congrArg CachedInterval.endBlockTimestamp hrow'
        exact hts
      have hres := insertCachedInterval_covered_noop
        (table.filter (fun r => !(r.contractAddress == i.contractAddress)) ++ rows) i hwfi
        (by rw [hfil.1]; exact h1)
        (by rw [hfil.1]; exact h2)
        (by rw [hfil.1]; exact h3)
        (by rw [hfil.1]; exact h4)
      rw [hfil.1, hfil.2] at hres
      exact hres

/-- Witness for C4: inserting the covered interval `[15,30]@999` into
`tableW'` leaves it unchanged, and re-inserting `[41,50]@500` into the table
it produced (`tableW2`) is a fixpoint. -/
theorem insertCachedInterval_idempotent_witness :
    insertCachedInterval ivCov tableW' = Except.ok
      (tableW'.filter (fun r => !(r.contractAddress == ivCov.contractAddress)) ++
       tableW'.filter (fun r => r.contractAddress == ivCov.contractAddress)) ∧
    insertCachedInterval ivW2 tableW2 = Except.ok tableW2 :=
  ⟨insertCachedInterval_idempotent.1 tableW' ivCov (by decide)
    (by
      have h : (tableW'.filter
          (fun r => r.contractAddress == ivCov.contractAddress)).map intervalPair =
          [(10, 40)] := by rfl
      rw [h]
      simp)
    (by
      have h : (tableW'.filter
          (fun r => r.contractAddress == ivCov.contractAddress)).map intervalPair =
          [(10, 40)] := by rfl
      rw [h]
      simp)
    (by decide) (by decide),
   insertCachedInterval_idempotent.2 tableW' ivW2 tableW2 (by decide) (by decide)
    (by rfl)⟩
